import Mathlib

/-!
# Verification of the command interpreter `shell.c`

A shallow embedding of `src/shell.c`.

* The line buffer `char input[MAX_INPUT_SIZE]` is a list of characters (`Mem`);
  a `char *` into it is an offset, and the C string at an offset is read up to
  the first NUL (`cstr`).  Tokens are offsets into the one buffer, exactly as
  `strtok` hands them out, and `replace_variables` copies values in place.
* Writing past `key[128]`, `temp[MAX_INPUT_SIZE]`, the line buffer or
  `env_vars[MAX_ENV_VARS]` is undefined behaviour in C; the embedding stops with
  a `Fault` there.
* The `while` loop of `replace_variables` need not terminate, so it is given
  fuel (a bound on the number of iterations, per token).
* The operating system (open, chdir, getcwd, fork) is an oracle `OS`; what the
  interpreter does to the outside world is recorded as a list of `Event`s.
* `strdup` is assumed to succeed.
-/

namespace Shell

/-! ## Constants of `shell.c` -/

def MAX_INPUT_SIZE : Nat := 1024
def MAX_ARGS : Nat := 64
def MAX_ENV_VARS : Nat := 100

/-- The size of `char key[128]` in `replace_variables`. -/
def KEY_SIZE : Nat := 128

/-- The string `DELIM` (space, tab, carriage return, newline). -/
def DELIM : List Char := [' ', '\t', '\r', '\n']

/-- The terminator of a C string. -/
def NUL : Char := Char.ofNat 0

def isDelim (c : Char) : Bool := DELIM.contains c

/-! ## Memory and C strings -/

/-- A character buffer; a pointer into it is an offset. -/
abbrev Mem := List Char

/-- The C string stored at offset `p`: the characters up to the first NUL. -/
def cstr (mem : Mem) (p : Nat) : List Char :=
  (mem.drop p).takeWhile (fun c => c != NUL)

/-- Index of the first character satisfying `stop` in the C string that starts
the list, if there is one before the terminator. -/
def scan (stop : Char → Bool) : List Char → Option Nat
  | [] => none
  | c :: cs =>
    if c = NUL then none
    else if stop c then some 0
    else (scan stop cs).map (fun k => k + 1)

/-- The call `strchr(mem + p, c)` for a character `c` other than NUL. -/
def strchr (mem : Mem) (p : Nat) (c : Char) : Option Nat :=
  (scan (fun x => x == c) (mem.drop p)).map (fun k => p + k)

/-- The call `strpbrk(mem + p, DELIM)`. -/
def strpbrk (mem : Mem) (p : Nat) : Option Nat :=
  (scan isDelim (mem.drop p)).map (fun k => p + k)

/-- The call `strspn(s, DELIM)`. -/
def strspn (s : List Char) : Nat :=
  (s.takeWhile isDelim).length

/-- The call `strcspn(s, DELIM)`. -/
def strcspn (s : List Char) : Nat :=
  (s.takeWhile (fun c => c != NUL && !isDelim c)).length

/-- The call `strcpy(mem + dst, src)`: the characters of `src` and a terminator.
The caller checks that `dst + src.length < mem.length`. -/
def strcpy (mem : Mem) (dst : Nat) (src : List Char) : Mem :=
  mem.take dst ++ src ++ NUL :: mem.drop (dst + src.length + 1)

/-- Ways in which the C program leaves defined behaviour, and the one way in
which the embedding gives up (`out_of_fuel`). -/
inductive Fault
  /-- the buffer handed to `parse_command` holds no terminator -/
  | unterminated
  /-- a name of 128 or more characters is copied into `key[128]` -/
  | key_overflow
  /-- `sprintf` writes 1024 or more characters into `temp[MAX_INPUT_SIZE]` -/
  | temp_overflow
  /-- `strcpy(args[i], temp)` writes past the end of the line buffer -/
  | input_overflow
  /-- `env_vars[env_var_count]` is written with `env_var_count >= MAX_ENV_VARS` -/
  | env_overflow
  /-- `args[]` is accessed past its initialised slots -/
  | args_bounds
  /-- the `while` loop of `replace_variables` ran longer than the fuel given -/
  | out_of_fuel
  deriving DecidableEq, Repr

deriving instance DecidableEq for Except

/-! ## The variable store -/

/-- The entries `env_vars[0 .. env_var_count)`, each a name and a value
(both `strdup` copies, so independent of the line buffer). -/
abbrev Env := List (List Char × List Char)

def env_var_count (env : Env) : Nat := env.length

/-- First entry whose name is `key`, in index order. -/
def get_env_value : Env → List Char → Option (List Char)
  | [], _ => none
  | (name, value) :: rest, key =>
    if name = key then some value else get_env_value rest key

/-- Index of the first entry named `key` (the loop of the `unset` branch). -/
def find_env_index : Env → List Char → Option Nat
  | [], _ => none
  | (name, _) :: rest, key =>
    if name = key then some 0 else (find_env_index rest key).map (fun k => k + 1)

/-- The body of the `unset` loop at a match `i`: entry `i` is overwritten by the
last entry and the count drops by one. -/
def remove_env_at (env : Env) (i : Nat) : Env :=
  match env.getLast? with
  | some last => (env.set i last).dropLast
  | none => env

def unset_env (env : Env) (key : List Char) : Env :=
  match find_env_index env key with
  | some i => remove_env_at env i
  | none => env

/-! ## The tokenizer -/

/-- One call of `strtok` with the saved position `save`: the token found (or
NULL), the buffer, and the new saved position. -/
def strtok (mem : Mem) (save : Nat) : Option Nat × Mem × Nat :=
  let s := save + strspn (mem.drop save)
  if mem.getD s NUL = NUL then (none, mem, s)
  else
    let e := s + strcspn (mem.drop s)
    if mem.getD e NUL = NUL then (some s, mem, e)
    else (some s, mem.set e NUL, e + 1)

/-- The loop `while (token != NULL && argc < MAX_ARGS - 1)`; `room` is
`MAX_ARGS - 1 - argc`. -/
def token_loop : Nat → Option Nat → Mem → Nat → List Nat × Mem
  | 0, _, mem, _ => ([], mem)
  | _ + 1, none, mem, _ => ([], mem)
  | room + 1, some t, mem, save =>
    match strtok mem save with
    | (token, mem1, save1) =>
      match token_loop room token mem1 save1 with
      | (rest, mem2) => (t :: rest, mem2)

/-- Lines 108-114: the tokens stored in `args[0 .. argc)` and the buffer after
`strtok` has cut it. -/
def tokenize (input : Mem) : List Nat × Mem :=
  match strtok input 0 with
  | (token, mem1, save1) => token_loop (MAX_ARGS - 1) token mem1 save1

/-! ## Variable substitution -/

/-- The name copied into `key`. -/
def var_key (mem : Mem) (dollar_pos : Nat) (endp : Option Nat) : List Char :=
  match endp with
  | some e => (mem.drop (dollar_pos + 1)).take (e - dollar_pos - 1)
  | none => cstr mem (dollar_pos + 1)

/-- The text after the name, the third `%s` of the `sprintf`. -/
def var_rest (mem : Mem) (endp : Option Nat) : List Char :=
  match endp with
  | some e => cstr mem e
  | none => []

/-- The loop `while (dollar_pos != NULL)` for the token at offset `a`. -/
def replace_while (env : Env) (a : Nat) : Nat → Mem → Nat → Except Fault Mem
  | 0, _, _ => .error .out_of_fuel
  | fuel + 1, mem, dollar_pos =>
    let mem1 := mem.set dollar_pos NUL
    let endp := strpbrk mem1 (dollar_pos + 1)
    let key := var_key mem1 dollar_pos endp
    if KEY_SIZE ≤ key.length then .error .key_overflow
    else
      match get_env_value env key with
      | some value =>
        let temp := cstr mem1 a ++ value ++ var_rest mem1 endp
        if MAX_INPUT_SIZE ≤ temp.length then .error .temp_overflow
        else if mem1.length ≤ a + temp.length then .error .input_overflow
        else
          let mem2 := strcpy mem1 a temp
          match strchr mem2 a '$' with
          | some d => replace_while env a fuel mem2 d
          | none => .ok mem2
      | none =>
        match strchr mem1 a '$' with
        | some d => replace_while env a fuel mem1 d
        | none => .ok mem1

/-- The body of the `for` loop of `replace_variables` for one token. -/
def replace_token (env : Env) (fuel : Nat) (mem : Mem) (a : Nat) : Except Fault Mem :=
  match strchr mem a '$' with
  | some d => replace_while env a fuel mem d
  | none => .ok mem

/-- The function `replace_variables`: `args` holds the initialised slots of the
argument array (`none` is NULL). -/
def replace_variables (env : Env) (fuel : Nat) : Mem → List (Option Nat) → Except Fault Mem
  | _, [] => .error .args_bounds
  | mem, none :: _ => .ok mem
  | mem, some a :: rest =>
    match replace_token env fuel mem a with
    | .ok mem1 => replace_variables env fuel mem1 rest
    | .error f => .error f

/-! ## Descriptors and the operating system -/

/-- What a file descriptor refers to. -/
inductive Stream
  /-- one of the streams the interpreter was started with -/
  | inherited (fd : Nat)
  /-- a file opened by path, for writing or for reading -/
  | file (path : List Char) (writing : Bool)
  deriving DecidableEq, Repr

/-- The open descriptors of a process; the first entry for a number counts. -/
abbrev FdTable := List (Nat × Stream)

/-- Standard input, output and error of the interpreter. -/
def initial_fds : FdTable :=
  [(0, Stream.inherited 0), (1, Stream.inherited 1), (2, Stream.inherited 2)]

/-- The answers of the operating system that the interpreter cannot compute. -/
structure OS where
  /-- whether `open(path, flags)` succeeds; the flag says `O_WRONLY | O_CREAT | O_TRUNC` -/
  can_open : List Char → Bool → Bool
  /-- whether `chdir(path)` succeeds -/
  can_chdir : List Char → Bool
  /-- the result of `getcwd`, `none` for NULL -/
  cwd : Option (List Char)
  /-- whether `fork()` succeeds -/
  can_fork : Bool

def fd_lookup (fds : FdTable) (fd : Int) : Option Stream :=
  if fd < 0 then none else fds.lookup fd.toNat

/-- The lowest descriptor number not in use. -/
def lowest_free (fds : FdTable) : Nat :=
  ((List.range (fds.length + 1)).find? (fun n => (fds.lookup n).isNone)).getD fds.length

/-- The call `open(path, flags)`: the descriptor returned (`-1` on failure, and
for a NULL path) and the new table. -/
def sys_open (os : OS) (fds : FdTable) (path : Option (List Char)) (writing : Bool) :
    Int × FdTable :=
  match path with
  | none => (-1, fds)
  | some p =>
    if os.can_open p writing then
      (Int.ofNat (lowest_free fds), (lowest_free fds, Stream.file p writing) :: fds)
    else (-1, fds)

/-- The call `close(fd)`; on a descriptor that is not open nothing changes. -/
def sys_close (fds : FdTable) (fd : Int) : FdTable :=
  fds.filter (fun e => decide (Int.ofNat e.1 ≠ fd))

/-- The call `dup2(oldfd, newfd)`; when `oldfd` is not open it fails and nothing
changes. -/
def sys_dup2 (fds : FdTable) (oldfd : Int) (newfd : Nat) : FdTable :=
  match fd_lookup fds oldfd with
  | some s => (newfd, s) :: sys_close fds (Int.ofNat newfd)
  | none => fds

def STDIN_FILENO : Int := 0
def STDOUT_FILENO : Int := 1

/-- The child process at the moment it calls `execvp`. -/
structure Child where
  /-- the strings `args[0], args[1], ...` up to the first NULL -/
  argv : List (List Char)
  /-- the descriptors of the child -/
  fds : FdTable
  deriving DecidableEq, Repr

/-- Standard input of the launched program. -/
def Child.stdin (c : Child) : Option Stream := fd_lookup c.fds 0

/-- Standard output of the launched program. -/
def Child.stdout (c : Child) : Option Stream := fd_lookup c.fds 1

/-- What the interpreter does to the outside world. -/
inductive Event
  /-- the call `exit(code)` -/
  | exit (code : Nat)
  /-- a message printed with `fprintf(stderr, ...)` -/
  | stderr (msg : String)
  /-- a call of `perror` -/
  | perror (tag : String)
  /-- text printed on standard output -/
  | stdout (text : List Char)
  /-- a call `chdir(path)` and whether it succeeded -/
  | chdir (path : List Char) (ok : Bool)
  /-- a call of `open` with its path (`none` for NULL) and result -/
  | opened (path : Option (List Char)) (writing : Bool) (fd : Int)
  /-- a successful `fork`, with what the child goes on to execute -/
  | spawn (child : Child)
  /-- the call `waitpid(pid, NULL, 0)` -/
  | waitpid
  deriving DecidableEq, Repr

/-- The child side of `execute_command`, lines 77-86. -/
def child_fds (fds : FdTable) (input_fd output_fd : Int) : FdTable :=
  let t1 := if input_fd ≠ STDIN_FILENO then sys_close (sys_dup2 fds input_fd 0) input_fd else fds
  if output_fd ≠ STDOUT_FILENO then sys_close (sys_dup2 t1 output_fd 1) output_fd else t1

/-- The strings handed to `execvp`: `args` up to the first NULL. -/
def argv_of (mem : Mem) : List (Option Nat) → List (List Char)
  | some p :: rest => cstr mem p :: argv_of mem rest
  | _ => []

/-- The function `execute_command`, seen from the interpreter. -/
def execute_command (os : OS) (fds : FdTable) (argv : List (List Char)) (background : Bool)
    (input_fd output_fd : Int) : List Event :=
  if os.can_fork then
    Event.spawn { argv := argv, fds := child_fds fds input_fd output_fd } ::
      (if background then [] else [Event.waitpid])
  else [Event.perror "Fork failed"]

/-! ## The redirection scan -/

/-- The variables of the `else` branch of `parse_command`. -/
structure Scan where
  args : List (Option Nat)
  background : Bool
  input_fd : Int
  output_fd : Int
  fds : FdTable
  events : List Event
  deriving DecidableEq, Repr

/-- The loop `for (int i = 0; args[i] != NULL; ++i)` of lines 193-212, from index
`i`; `steps` bounds the number of iterations by the number of slots. -/
def redirect_scan (os : OS) (mem : Mem) : Nat → Nat → Scan → Except Fault Scan
  | 0, _, _ => .error .args_bounds
  | steps + 1, i, s =>
    match s.args.get? i with
    | none => .error .args_bounds
    | some none => .ok s
    | some (some p) =>
      if cstr mem p = "&".toList then
        redirect_scan os mem steps (i + 1) { s with background := true, args := s.args.set i none }
      else if cstr mem p = "<".toList then
        match s.args.get? (i + 1) with
        | none => .error .args_bounds
        | some file =>
          match sys_open os s.fds (file.map (cstr mem)) false with
          | (fd, fds1) =>
            redirect_scan os mem steps (i + 1)
              { s with input_fd := fd, fds := fds1,
                       args := (s.args.set i none).set (i + 1) none,
                       events := s.events ++ [Event.opened (file.map (cstr mem)) false fd] }
      else if cstr mem p = ">".toList then
        match s.args.get? (i + 1) with
        | none => .error .args_bounds
        | some file =>
          match sys_open os s.fds (file.map (cstr mem)) true with
          | (fd, fds1) =>
            redirect_scan os mem steps (i + 1)
              { s with output_fd := fd, fds := fds1,
                       args := (s.args.set i none).set (i + 1) none,
                       events := s.events ++ [Event.opened (file.map (cstr mem)) true fd] }
      else redirect_scan os mem steps (i + 1) s

/-! ## The command dispatcher -/

/-- The state of the interpreter that outlives a line. -/
structure State where
  env_vars : Env
  fds : FdTable
  deriving DecidableEq, Repr

/-- What one call of `parse_command` leaves behind. -/
structure Result where
  state : State
  mem : Mem
  events : List Event
  deriving DecidableEq, Repr

/-- The string `args[i]` for `i < argc`. -/
def arg_str (mem : Mem) (toks : List Nat) (i : Nat) : List Char :=
  cstr mem (toks.getD i 0)

/-- The function `parse_command` on the buffer `input`. -/
def parse_command (os : OS) (fuel : Nat) (st : State) (input : Mem) : Except Fault Result :=
  if !input.contains NUL then .error .unterminated
  else
    match tokenize input with
    | (toks, mem1) =>
      let args := toks.map some ++ [none]
      let argc := toks.length
      if argc = 0 then .ok ⟨st, mem1, []⟩
      else
        match replace_variables st.env_vars fuel mem1 args with
        | .error f => .error f
        | .ok mem =>
          let cmd := arg_str mem toks 0
          if cmd = "quit".toList ∨ cmd = "exit".toList then
            .ok ⟨st, mem, [Event.exit 0]⟩
          else if cmd = "cd".toList then
            if argc < 2 then .ok ⟨st, mem, [Event.stderr "cd: missing argument\n"]⟩
            else if os.can_chdir (arg_str mem toks 1) then
              .ok ⟨st, mem, [Event.chdir (arg_str mem toks 1) true]⟩
            else .ok ⟨st, mem, [Event.chdir (arg_str mem toks 1) false, Event.perror "cd"]⟩
          else if cmd = "pwd".toList then
            match os.cwd with
            | some cwd => .ok ⟨st, mem, [Event.stdout (cwd ++ ['\n'])]⟩
            | none => .ok ⟨st, mem, [Event.perror "pwd"]⟩
          else if cmd = "set".toList then
            if argc < 3 then .ok ⟨st, mem, [Event.stderr "set: missing argument\n"]⟩
            else if MAX_ENV_VARS ≤ env_var_count st.env_vars then .error .env_overflow
            else
              .ok ⟨{ st with env_vars := st.env_vars ++ [(arg_str mem toks 1, arg_str mem toks 2)] },
                   mem, []⟩
          else if cmd = "unset".toList then
            if argc < 2 then .ok ⟨st, mem, [Event.stderr "unset: missing argument\n"]⟩
            else .ok ⟨{ st with env_vars := unset_env st.env_vars (arg_str mem toks 1) }, mem, []⟩
          else
            match redirect_scan os mem (args.length + 1) 0
                ⟨args, false, STDIN_FILENO, STDOUT_FILENO, st.fds, []⟩ with
            | .error f => .error f
            | .ok s =>
              .ok ⟨{ st with fds := s.fds }, mem,
                   s.events ++ execute_command os s.fds (argv_of mem s.args) s.background
                     s.input_fd s.output_fd⟩

/-! ## The read loop -/

/-- The call `fgets(input, MAX_INPUT_SIZE, stdin)` that stored `line`, followed by
`input[strcspn(input, "\n")] = 0`. -/
def read_line (buf : Mem) (line : List Char) : Mem :=
  let buf1 := strcpy buf 0 (line.take (MAX_INPUT_SIZE - 1))
  buf1.set (buf1.takeWhile (fun c => c != NUL && c != '\n')).length NUL

/-- The loop of `main`: `lines` are the chunks successive `fgets` calls return,
`os k` the operating system during iteration `k`. -/
def main_loop (os : Nat → OS) (fuel : Nat) :
    Nat → State → Mem → List (List Char) → Except Fault (State × List Event)
  | _, st, _, [] => .ok (st, [Event.stdout "xsh# ".toList])
  | k, st, buf, line :: rest =>
    match parse_command (os k) fuel st (read_line buf line) with
    | .error f => .error f
    | .ok r =>
      if Event.exit 0 ∈ r.events then .ok (r.state, Event.stdout "xsh# ".toList :: r.events)
      else
        match main_loop os fuel (k + 1) r.state r.mem rest with
        | .error f => .error f
        | .ok (st1, evs) => .ok (st1, Event.stdout "xsh# ".toList :: r.events ++ evs)

/-- The interpreter at start-up: no variables, the three standard streams. -/
def initial_state : State := ⟨[], initial_fds⟩

/-- A zeroed line buffer, as `main` may find it on its stack. -/
def fresh_buffer : Mem := List.replicate MAX_INPUT_SIZE NUL

/-! ## Buffers, operating systems and predicates used in the statements -/

/-- The buffer `parse_command` receives when `line` is typed at the first prompt. -/
def line_buffer (line : List Char) : Mem := read_line fresh_buffer (line ++ ['\n'])

/-- An operating system in which every call succeeds. -/
def all_ok : OS := ⟨fun _ _ => true, fun _ => true, some ['/'], true⟩

/-- An operating system in which no file can be opened. -/
def no_files : OS := ⟨fun _ _ => false, fun _ => true, some ['/'], true⟩

/-- The C string at offset `a` is a token: not empty, free of delimiters, and
terminated inside the buffer. -/
def is_token (mem : Mem) (a : Nat) : Prop :=
  cstr mem a ≠ [] ∧ (∀ c ∈ cstr mem a, isDelim c = false) ∧ a + (cstr mem a).length < mem.length

/-- The tokens lie in the buffer in increasing order from `lo` on, each one
starting after the terminator of the one before. -/
def well_laid (mem : Mem) : Nat → List Nat → Prop
  | _, [] => True
  | lo, a :: rest => lo ≤ a ∧ is_token mem a ∧ well_laid mem (a + (cstr mem a).length + 1) rest

/-- A string that holds no terminator, no `$` and no delimiter. -/
def clean (s : List Char) : Prop :=
  NUL ∉ s ∧ '$' ∉ s ∧ ∀ c ∈ s, isDelim c = false

/-- Every name and every value in the store is clean. -/
def store_ok (env : Env) : Prop :=
  ∀ e ∈ env, clean e.1 ∧ clean e.2

/-- The C string at offset `a` is terminated inside the buffer and free of
delimiters: what the `for` loop of `replace_variables` expects of a token. -/
def fine (mem : Mem) (a : Nat) : Prop :=
  a + (cstr mem a).length < mem.length ∧ ∀ c ∈ cstr mem a, isDelim c = false

/-- The C string at offset `a` is fine and holds no `$`: a token the loop of
`replace_variables` is done with. -/
def settled (mem : Mem) (a : Nat) : Prop :=
  fine mem a ∧ '$' ∉ cstr mem a

/-- The states the interpreter can be in: the initial one, and those
`parse_command` returns from a reachable one, on any buffer, with any fuel and
any answers of the operating system. -/
inductive Reachable : State → Prop
  | init : Reachable initial_state
  | step (os : OS) (fuel : Nat) (st : State) (input : Mem) (r : Result) :
      Reachable st → parse_command os fuel st input = .ok r → Reachable r.state

/-! ## Notions used to state the properties of the tokenizer and of the scan -/

/-- Specification side: the maximal runs of non-delimiter characters of a line,
in their order of occurrence.  The line is split at every delimiter and the
empty pieces are dropped. -/
def maximal_runs (line : List Char) : List (List Char) :=
  (line.splitOnP isDelim).filter (fun r => !r.isEmpty)

/-- Specification side: every run of delimiters is replaced by one space. -/
def collapse_delims : List Char → List Char
  | [] => []
  | [c] => if isDelim c then [' '] else [c]
  | c :: d :: cs =>
    if isDelim c then
      if isDelim d then collapse_delims (d :: cs) else ' ' :: collapse_delims (d :: cs)
    else c :: collapse_delims (d :: cs)

/-- Specification side: the whitespace-normalized form of a line: leading and
trailing delimiters removed and every run of delimiters collapsed to one space. -/
def normalized (line : List Char) : List Char :=
  collapse_delims ((line.dropWhile isDelim).rdropWhile isDelim)

/-- The tokens joined with single spaces. -/
def join_spaces (words : List (List Char)) : List Char :=
  List.intercalate [' '] words

/-- One of the three operator tokens of the redirection scan. -/
def is_operator (tok : List Char) : Bool :=
  decide (tok = "&".toList) || decide (tok = "<".toList) || decide (tok = ">".toList)

/-- The slots the redirection scan leaves behind for the tokens `toks` it has
yet to look at (followed by the terminating NULL): NULL for `&`, NULL twice for
`<` or `>` and the slot after it, the token itself otherwise. -/
def scanned_args (mem : Mem) : List Nat → List (Option Nat)
  | [] => [none]
  | p :: rest =>
    if cstr mem p = "&".toList then none :: scanned_args mem rest
    else if cstr mem p = "<".toList ∨ cstr mem p = ">".toList then
      none :: none :: (rest.map some ++ [none]).tail
    else some p :: scanned_args mem rest

/-- The variables the redirection scan leaves behind, other than `args`, for the
tokens `toks` it has yet to look at: the loop of lines 193-212 as a recursion
over the tokens. -/
def scan_fields (os : OS) (mem : Mem) : List Nat → Scan → Scan
  | [], s => s
  | p :: rest, s =>
    if cstr mem p = "&".toList then scan_fields os mem rest { s with background := true }
    else if cstr mem p = "<".toList then
      { s with input_fd := (sys_open os s.fds (rest.head?.map (cstr mem)) false).1,
               fds := (sys_open os s.fds (rest.head?.map (cstr mem)) false).2,
               events := s.events ++ [Event.opened (rest.head?.map (cstr mem)) false
                 (sys_open os s.fds (rest.head?.map (cstr mem)) false).1] }
    else if cstr mem p = ">".toList then
      { s with output_fd := (sys_open os s.fds (rest.head?.map (cstr mem)) true).1,
               fds := (sys_open os s.fds (rest.head?.map (cstr mem)) true).2,
               events := s.events ++ [Event.opened (rest.head?.map (cstr mem)) true
                 (sys_open os s.fds (rest.head?.map (cstr mem)) true).1] }
    else scan_fields os mem rest s

/-- The names the dispatcher handles itself. -/
def builtin_names : List (List Char) :=
  ["quit".toList, "exit".toList, "cd".toList, "pwd".toList, "set".toList, "unset".toList]

/-- The scan variables at the start of the `else` branch of `parse_command`. -/
def initial_scan (toks : List Nat) (fds : FdTable) : Scan :=
  ⟨toks.map some ++ [none], false, STDIN_FILENO, STDOUT_FILENO, fds, []⟩

theorem nul_ne_dollar : NUL ≠ '$' := by decide

theorem takeWhile_nul_free (body rest : List Char) (hb : NUL ∉ body) :
    (body ++ NUL :: rest).takeWhile (fun c => c != NUL) = body := by
  induction body with
  | nil => simp [List.takeWhile]
  | cons c cs ih =>
    have hc : c ≠ NUL := fun h => hb (by simp [h])
    have hcs : NUL ∉ cs := fun h => hb (by simp [h])
    simp [List.takeWhile_cons, hc, ih hcs]

theorem cstr_at (pre body post : List Char) (hb : NUL ∉ body) :
    cstr (pre ++ body ++ NUL :: post) pre.length = body := by
  unfold cstr
  rw [List.append_assoc, List.drop_left]
  exact takeWhile_nul_free body post hb

theorem cstr_nul_free (mem : Mem) (a : Nat) : NUL ∉ cstr mem a := by
  unfold cstr
  intro h
  have := List.mem_takeWhile_imp h
  simp at this

theorem takeWhile_split (l : List Char) (h : (l.takeWhile (fun c => c != NUL)).length < l.length) :
    l = l.takeWhile (fun c => c != NUL) ++ NUL :: l.drop ((l.takeWhile (fun c => c != NUL)).length + 1) := by
  induction l with
  | nil => simp at h
  | cons c cs ih =>
    by_cases hc : c = NUL
    · subst hc
      simp [List.takeWhile]
    · have h1 : (c != NUL) = true := by simp [hc]
      simp only [List.takeWhile, h1, List.length_cons, Nat.add_lt_add_iff_right] at h ⊢
      simp only [List.cons_append, List.drop_succ_cons]
      congr 1
      exact ih h

/-- A C string whose terminator lies inside the buffer splits the buffer. -/
theorem mem_split (mem : Mem) (a : Nat) (h : a + (cstr mem a).length < mem.length) :
    mem = mem.take a ++ cstr mem a ++ NUL :: mem.drop (a + (cstr mem a).length + 1) := by
  have h1 : ((mem.drop a).takeWhile (fun c => c != NUL)).length < (mem.drop a).length := by
    unfold cstr at h
    simp only [List.length_drop]
    omega
  have h2 := takeWhile_split (mem.drop a) h1
  have h3 : mem = mem.take a ++ mem.drop a := (List.take_append_drop a mem).symm
  unfold cstr
  rw [List.append_assoc, List.drop_drop] at *
  rw [show a + ((mem.drop a).takeWhile (fun c => c != NUL)).length + 1
        = a + (((mem.drop a).takeWhile (fun c => c != NUL)).length + 1) by omega]
  rw [← h2]
  exact h3

theorem scan_found (stop : Char → Bool) (s : List Char) (c : Char) (rest : List Char)
    (hs : ∀ x ∈ s, x ≠ NUL ∧ stop x = false) (hc : c ≠ NUL) (hstop : stop c = true) :
    scan stop (s ++ c :: rest) = some s.length := by
  induction s with
  | nil => simp [scan, hc, hstop]
  | cons x xs ih =>
    have hx := hs x (by simp)
    have := ih (fun y hy => hs y (by simp [hy]))
    simp [scan, hx.1, hx.2, this]

theorem scan_none (stop : Char → Bool) (s rest : List Char)
    (hs : ∀ x ∈ s, stop x = false) :
    scan stop (s ++ NUL :: rest) = none := by
  induction s with
  | nil => simp [scan]
  | cons x xs ih =>
    have hx := hs x (by simp)
    have := ih (fun y hy => hs y (by simp [hy]))
    by_cases hn : x = NUL
    · simp [scan, hn]
    · simp [scan, hn, hx, this]

theorem set_at (pre : List Char) (c d : Char) (rest : List Char) :
    (pre ++ c :: rest).set pre.length d = pre ++ d :: rest := by
  induction pre with
  | nil => simp
  | cons x xs ih => simp [ih]

theorem strcpy_at (pre rest src : List Char) :
    strcpy (pre ++ rest) pre.length src = pre ++ src ++ NUL :: rest.drop (src.length + 1) := by
  unfold strcpy
  rw [List.take_left]
  congr 2
  rw [show pre.length + src.length + 1 = pre.length + (src.length + 1) by omega]
  rw [← List.drop_drop, List.drop_left]

theorem strchr_at (pre l : List Char) (c : Char) :
    strchr (pre ++ l) pre.length c = (scan (fun x => x == c) l).map (fun k => pre.length + k) := by
  unfold strchr
  rw [List.drop_left]

theorem strpbrk_at (pre l : List Char) :
    strpbrk (pre ++ l) pre.length = (scan isDelim l).map (fun k => pre.length + k) := by
  unfold strpbrk
  rw [List.drop_left]

theorem cstr_at_body (pre body post : List Char) (hb : NUL ∉ body) :
    cstr (pre ++ (body ++ NUL :: post)) pre.length = body := by
  rw [← List.append_assoc]
  exact cstr_at pre body post hb

/-- One round of the `while` loop on a token `p$n` whose name `n` runs to the
end of the token: the exact outcome. -/
theorem replace_token_layout (env : Env) (fuel : Nat) (pre p n post : List Char)
    (hp : ∀ c ∈ p, c ≠ NUL ∧ c ≠ '$')
    (hn : ∀ c ∈ n, c ≠ NUL ∧ isDelim c = false)
    (hv : ∀ v, get_env_value env n = some v → NUL ∉ v ∧ '$' ∉ v) :
    replace_token env (fuel + 1) (pre ++ (p ++ '$' :: (n ++ NUL :: post))) pre.length =
      if KEY_SIZE ≤ n.length then .error .key_overflow
      else
        match get_env_value env n with
        | none => .ok (pre ++ (p ++ NUL :: (n ++ NUL :: post)))
        | some v =>
          if MAX_INPUT_SIZE ≤ p.length + v.length then .error .temp_overflow
          else if (pre ++ (p ++ '$' :: (n ++ NUL :: post))).length ≤ pre.length + (p.length + v.length)
          then .error .input_overflow
          else .ok (pre ++ ((p ++ v) ++ NUL :: (p ++ NUL :: (n ++ NUL :: post)).drop (p.length + v.length + 1))) := by
  have hpN : NUL ∉ p := fun h => (hp _ h).1 rfl
  have hnN : NUL ∉ n := fun h => (hn _ h).1 rfl
  -- the first `$`
  have h1 : strchr (pre ++ (p ++ '$' :: (n ++ NUL :: post))) pre.length '$'
      = some (pre.length + p.length) := by
    rw [strchr_at, scan_found _ p '$' _ (fun x hx => ⟨(hp x hx).1, by simpa using (hp x hx).2⟩)
      (by decide) (by simp)]
    rfl
  -- the buffer after `*dollar_pos = 0`
  have h2 : (pre ++ (p ++ '$' :: (n ++ NUL :: post))).set (pre.length + p.length) NUL
      = pre ++ (p ++ NUL :: (n ++ NUL :: post)) := by
    rw [← List.append_assoc, ← List.length_append, set_at, List.append_assoc]
  -- no delimiter in the name
  have h3 : strpbrk (pre ++ (p ++ NUL :: (n ++ NUL :: post))) (pre.length + p.length + 1) = none := by
    have : pre ++ (p ++ NUL :: (n ++ NUL :: post)) = (pre ++ (p ++ [NUL])) ++ (n ++ NUL :: post) := by
      simp
    rw [this, show pre.length + p.length + 1 = (pre ++ (p ++ [NUL])).length by simp; omega,
      strpbrk_at, scan_none _ n post (fun x hx => (hn x hx).2)]
    rfl
  have h4 : cstr (pre ++ (p ++ NUL :: (n ++ NUL :: post))) (pre.length + p.length + 1) = n := by
    have : pre ++ (p ++ NUL :: (n ++ NUL :: post)) = (pre ++ (p ++ [NUL])) ++ (n ++ NUL :: post) := by
      simp
    rw [this, show pre.length + p.length + 1 = (pre ++ (p ++ [NUL])).length by simp; omega]
    exact cstr_at_body _ n post hnN
  have h5 : cstr (pre ++ (p ++ NUL :: (n ++ NUL :: post))) pre.length = p :=
    cstr_at_body pre p _ hpN
  have h6 : strchr (pre ++ (p ++ NUL :: (n ++ NUL :: post))) pre.length '$' = none := by
    rw [strchr_at, scan_none _ p _ (fun x hx => by simpa using (hp x hx).2)]
    rfl
  unfold replace_token
  rw [h1]
  simp only [replace_while, h2, h3, var_key, var_rest, h4, h5, List.append_nil]
  by_cases hk : KEY_SIZE ≤ n.length
  · simp [hk]
  · simp only [hk, if_false]
    cases hg : get_env_value env n with
    | none => simp only [h6]
    | some v =>
      obtain ⟨hvN, hvD⟩ := hv v hg
      have hpv : (p ++ v).length = p.length + v.length := List.length_append _ _
      have hlen : (pre ++ (p ++ NUL :: (n ++ NUL :: post))).length
          = (pre ++ (p ++ '$' :: (n ++ NUL :: post))).length := by simp
      dsimp only
      rw [hpv, hlen]
      by_cases ht : MAX_INPUT_SIZE ≤ p.length + v.length
      · simp only [ht, if_true]
      · simp only [ht, if_false]
        by_cases hi : (pre ++ (p ++ '$' :: (n ++ NUL :: post))).length ≤ pre.length + (p.length + v.length)
        · simp only [hi, if_true]
        · have h7 : strcpy (pre ++ (p ++ NUL :: (n ++ NUL :: post))) pre.length (p ++ v)
              = pre ++ ((p ++ v) ++ NUL :: (p ++ NUL :: (n ++ NUL :: post)).drop (p.length + v.length + 1)) := by
            rw [strcpy_at]; simp
          have h8 : strchr (pre ++ ((p ++ v) ++ NUL :: (p ++ NUL :: (n ++ NUL :: post)).drop (p.length + v.length + 1))) pre.length '$' = none := by
            rw [strchr_at, scan_none _ (p ++ v) _ (fun x hx => by
              rcases List.mem_append.1 hx with h | h
              · simpa using (hp x h).2
              · have : x ≠ '$' := fun e => hvD (e ▸ h)
                simpa using this)]
            rfl
          simp only [hi, if_false, h7, h8]

/-! ## Lemmas on the tokenizer -/

theorem span_split (q : Char → Bool) (l : List Char) (y : Char) (hy : y ∈ l) (hq : q y = false) :
    ∃ ds c tl, l = ds ++ c :: tl ∧ (∀ x ∈ ds, q x = true) ∧ q c = false := by
  induction l with
  | nil => simp at hy
  | cons x xs ih =>
    by_cases hx : q x = true
    · have hy2 : y ∈ xs := by
        rcases List.mem_cons.1 hy with h | h
        · subst h; rw [hq] at hx; cases hx
        · exact h
      obtain ⟨ds, c, tl, h1, h2, h3⟩ := ih hy2
      refine ⟨x :: ds, c, tl, by simp [h1], ?_, h3⟩
      intro z hz
      rcases List.mem_cons.1 hz with h | h
      · subst h; exact hx
      · exact h2 z h
    · exact ⟨[], x, xs, rfl, by simp, by simpa using hx⟩

theorem takeWhile_stop (q : Char → Bool) (ds : List Char) (c : Char) (tl : List Char)
    (h : ∀ x ∈ ds, q x = true) (hc : q c = false) :
    (ds ++ c :: tl).takeWhile q = ds := by
  induction ds with
  | nil => simp [List.takeWhile_cons, hc]
  | cons x xs ih =>
    have hx := h x (by simp)
    simp [List.takeWhile_cons, hx, ih (fun z hz => h z (by simp [hz]))]

theorem isDelim_nul : isDelim NUL = false := by decide

/-- What `strtok` sees from the saved position on: delimiters, the token, and
the character that ends it. -/
theorem delim_split (l : List Char) (h : NUL ∈ l) :
    ∃ ds body c tl, l = ds ++ (body ++ c :: tl) ∧ (∀ x ∈ ds, isDelim x = true) ∧
      (∀ x ∈ body, x ≠ NUL ∧ isDelim x = false) ∧
      (c = NUL ∨ (isDelim c = true ∧ body ≠ [])) := by
  obtain ⟨ds, x, r, h1, h2, h3⟩ := span_split isDelim l NUL h isDelim_nul
  have hr : NUL ∈ x :: r := by
    rw [h1] at h
    rcases List.mem_append.1 h with h | h
    · have := h2 _ h; rw [isDelim_nul] at this; cases this
    · exact h
  obtain ⟨body, c, tl, h4, h5, h6⟩ :=
    span_split (fun c => c != NUL && !isDelim c) (x :: r) NUL hr (by simp)
  refine ⟨ds, body, c, tl, by rw [h1, h4], h2, ?_, ?_⟩
  · intro z hz
    have := h5 z hz
    simpa using this
  · by_cases hc : c = NUL
    · exact Or.inl hc
    · right
      have hd : isDelim c = true := by simpa [hc] using h6
      refine ⟨hd, ?_⟩
      intro hb
      subst hb
      simp only [List.nil_append, List.cons.injEq] at h4
      rw [h4.1, hd] at h3
      cases h3

theorem getD_at (pre : List Char) (c : Char) (rest : List Char) (d : Char) :
    (pre ++ c :: rest).getD pre.length d = c := by
  induction pre with
  | nil => simp
  | cons x xs ih => simpa using ih

/-- The result of one `strtok` call on a buffer laid out as in `delim_split`. -/
theorem strtok_layout (front ds body : List Char) (c : Char) (tl : List Char)
    (hds : ∀ x ∈ ds, isDelim x = true)
    (hbody : ∀ x ∈ body, x ≠ NUL ∧ isDelim x = false)
    (hc : c = NUL ∨ (isDelim c = true ∧ body ≠ [])) :
    strtok (front ++ (ds ++ (body ++ c :: tl))) front.length =
      if body = [] then (none, front ++ (ds ++ (body ++ c :: tl)), front.length + ds.length)
      else if c = NUL then
        (some (front.length + ds.length), front ++ (ds ++ (body ++ c :: tl)),
          front.length + ds.length + body.length)
      else
        (some (front.length + ds.length), front ++ (ds ++ (body ++ NUL :: tl)),
          front.length + ds.length + body.length + 1) := by
  have hc2 : (fun c => c != NUL && !isDelim c) c = false := by
    rcases hc with h | h
    · simp [h]
    · simp [h.1]
  have hspn : strspn (ds ++ (body ++ c :: tl)) = ds.length := by
    unfold strspn
    cases body with
    | nil =>
      have hcn : c = NUL := by
        rcases hc with h | h
        · exact h
        · exact absurd rfl h.2
      rw [List.nil_append, takeWhile_stop isDelim ds c tl hds (by rw [hcn]; exact isDelim_nul)]
    | cons b bs =>
      rw [List.cons_append, takeWhile_stop isDelim ds b _ hds (hbody b (by simp)).2]
  have hcspn : strcspn (body ++ c :: tl) = body.length := by
    unfold strcspn
    rw [takeWhile_stop _ body c tl (fun x hx => by simp [(hbody x hx).1, (hbody x hx).2]) hc2]
  have hdrop : (front ++ (ds ++ (body ++ c :: tl))).drop (front.length + ds.length)
      = body ++ c :: tl := by
    rw [← List.append_assoc, ← List.length_append, List.drop_left]
  have hget1 : (front ++ (ds ++ (body ++ c :: tl))).getD (front.length + ds.length) NUL
      = (body ++ c :: tl).headD NUL := by
    cases body with
    | nil =>
      rw [List.nil_append, ← List.append_assoc, ← List.length_append, getD_at]
      rfl
    | cons b bs =>
      rw [List.cons_append, ← List.append_assoc, ← List.length_append, getD_at]
      rfl
  have hget2 : (front ++ (ds ++ (body ++ c :: tl))).getD (front.length + ds.length + body.length) NUL
      = c := by
    rw [← List.append_assoc, ← List.append_assoc, ← List.length_append, ← List.length_append,
      getD_at]
  have hset : (front ++ (ds ++ (body ++ c :: tl))).set (front.length + ds.length + body.length) NUL
      = front ++ (ds ++ (body ++ NUL :: tl)) := by
    rw [← List.append_assoc, ← List.append_assoc, ← List.length_append, ← List.length_append,
      set_at]
    simp
  unfold strtok
  simp only [List.drop_left, hspn, hdrop, hcspn, hget1, hget2, hset]
  cases body with
  | nil =>
    have hcn : c = NUL := by
      rcases hc with h | h
      · exact h
      · exact absurd rfl h.2
    simp [hcn]
  | cons b bs =>
    have hb := (hbody b (by simp)).1
    simp only [List.cons_append, List.headD_cons, hb, if_false]
    simp

theorem take_eq_of_le {l1 l2 : List Char} {j k : Nat} (h : l1.take k = l2.take k) (hjk : j ≤ k) :
    l1.take j = l2.take j := by
  have h1 : (l1.take k).take j = (l2.take k).take j := by rw [h]
  rwa [List.take_take, List.take_take, Nat.min_eq_left hjk] at h1

theorem take_past (pre body : List Char) (c : Char) (post : List Char) (k : Nat)
    (hk : pre.length + body.length < k) :
    (pre ++ (body ++ c :: post)).take k
      = pre ++ (body ++ c :: post.take (k - (pre.length + body.length + 1))) := by
  have h1 : pre ++ (body ++ c :: post) = (pre ++ (body ++ [c])) ++ post := by simp
  have h2 : (pre ++ (body ++ [c])).length = pre.length + body.length + 1 := by
    simp; omega
  rw [h1, List.take_append_eq_append_take, List.take_of_length_le (by omega), h2]
  simp

/-- A buffer split at a C string, with the offset as the length of what comes
before. -/
theorem mem_layout (mem : Mem) (a : Nat) (hin : a + (cstr mem a).length < mem.length) :
    ∃ pre post, pre.length = a ∧ mem = pre ++ (cstr mem a ++ NUL :: post) := by
  refine ⟨mem.take a, mem.drop (a + (cstr mem a).length + 1), ?_, ?_⟩
  · rw [List.length_take]; omega
  · have := mem_split mem a hin
    rwa [List.append_assoc] at this

/-- A C string is determined by the buffer up to and including its terminator. -/
theorem cstr_frame (mem mem1 : Mem) (a k : Nat) (h : mem1.take k = mem.take k)
    (hk : a + (cstr mem a).length < k) (hin : a + (cstr mem a).length < mem.length) :
    cstr mem1 a = cstr mem a := by
  obtain ⟨pre, post, hlen, hmem⟩ := mem_layout mem a hin
  have hnul := cstr_nul_free mem a
  generalize cstr mem a = body at hmem hnul hk hin
  subst hlen
  have h1 := take_past pre body NUL post k hk
  have h2 : mem1 = mem1.take k ++ mem1.drop k := (List.take_append_drop k mem1).symm
  rw [h, hmem, h1] at h2
  rw [h2, List.append_assoc, List.append_assoc]
  exact cstr_at_body pre body _ hnul

/-- The character at the terminator of a C string is NUL. -/
theorem cstr_at_terminator (mem : Mem) (a : Nat) (hin : a + (cstr mem a).length < mem.length) :
    cstr mem (a + (cstr mem a).length) = [] := by
  obtain ⟨pre, post, hlen, hmem⟩ := mem_layout mem a hin
  generalize cstr mem a = body at hmem hin
  subst hlen
  have h1 : pre ++ (body ++ NUL :: post) = (pre ++ body) ++ NUL :: post := by simp
  rw [hmem, h1, ← List.length_append]
  unfold cstr
  rw [List.drop_left]
  simp [List.takeWhile_cons]

/-- What one call of `strtok` guarantees, on a buffer that still holds a
terminator from the saved position on. -/
theorem strtok_facts (mem : Mem) (save : Nat) (hn : NUL ∈ mem.drop save)
    (tok : Option Nat) (mem1 : Mem) (save1 : Nat) (h : strtok mem save = (tok, mem1, save1)) :
    mem1.length = mem.length ∧ mem1.take (save + 1) = mem.take (save + 1) ∧
      (tok = none → mem1 = mem) ∧
      (∀ t, tok = some t → save ≤ t ∧ is_token mem1 t ∧ t + (cstr mem1 t).length ≤ save1 ∧
        NUL ∈ mem1.drop save1) := by
  obtain ⟨ds, body, c, tl, hsplit, hds, hbody, hc⟩ := delim_split (mem.drop save) hn
  have hsave : save < mem.length := by
    by_contra hlt
    rw [List.drop_of_length_le (by omega)] at hn
    simp at hn
  have hfront : (mem.take save).length = save := by rw [List.length_take]; omega
  have hmem : mem = mem.take save ++ (ds ++ (body ++ c :: tl)) := by
    rw [← hsplit, List.take_append_drop]
  generalize mem.take save = front at hfront hmem
  subst hfront
  have hlay := strtok_layout front ds body c tl hds hbody hc
  rw [← hmem, h] at hlay
  have hbN : NUL ∉ body := fun hb => (hbody _ hb).1 rfl
  by_cases hb : body = []
  · simp only [hb, if_true, Prod.mk.injEq] at hlay
    obtain ⟨h1, h2, -⟩ := hlay
    subst h1 h2
    exact ⟨rfl, rfl, fun _ => rfl, fun t ht => by cases ht⟩
  · simp only [hb, if_false] at hlay
    have hbl : 0 < body.length := List.length_pos.2 hb
    by_cases hcn : c = NUL
    · simp only [hcn, if_true, Prod.mk.injEq] at hlay
      obtain ⟨h1, h2, h3⟩ := hlay
      subst h1 h2 h3
      refine ⟨rfl, rfl, (fun h => by cases h), ?_⟩
      intro t ht
      cases ht
      have hcs : cstr mem1 (front.length + ds.length) = body := by
        rw [hmem, hcn, ← List.append_assoc, ← List.length_append]
        exact cstr_at_body (front ++ ds) body tl hbN
      refine ⟨by omega, ⟨by rw [hcs]; exact hb, by rw [hcs]; exact fun x hx => (hbody x hx).2, ?_⟩,
        by rw [hcs], ?_⟩
      · rw [hcs]
        conv_rhs => rw [hmem]
        simp; omega
      · rw [hmem, hcn]
        have : front ++ (ds ++ (body ++ NUL :: tl)) = (front ++ ds ++ body) ++ NUL :: tl := by simp
        rw [this, show front.length + ds.length + body.length = (front ++ ds ++ body).length by
          simp only [List.length_append], List.drop_left]
        simp
    · simp only [hcn, if_false, Prod.mk.injEq] at hlay
      obtain ⟨h1, h2, h3⟩ := hlay
      subst h1 h2 h3
      have hcd : isDelim c = true := by
        rcases hc with h | h
        · exact absurd h hcn
        · exact h.1
      have hcs : cstr (front ++ (ds ++ (body ++ NUL :: tl))) (front.length + ds.length) = body := by
        rw [← List.append_assoc, ← List.length_append]
        exact cstr_at_body (front ++ ds) body tl hbN
      refine ⟨by rw [hmem]; simp, ?_, (fun h => by cases h), ?_⟩
      · rw [hmem]
        have e1 : front ++ (ds ++ (body ++ NUL :: tl)) = (front ++ ds ++ body) ++ NUL :: tl := by simp
        have e2 : front ++ (ds ++ (body ++ c :: tl)) = (front ++ ds ++ body) ++ c :: tl := by simp
        have hle : front.length + 1 ≤ (front ++ ds ++ body).length := by simp; omega
        have t1 : (front ++ ds ++ body ++ NUL :: tl).take (front.length + 1)
            = (front ++ ds ++ body).take (front.length + 1) :=
          List.take_append_of_le_length hle
        have t2 : (front ++ ds ++ body ++ c :: tl).take (front.length + 1)
            = (front ++ ds ++ body).take (front.length + 1) :=
          List.take_append_of_le_length hle
        rw [e1, e2, t1, t2]
      · intro t ht
        cases ht
        refine ⟨by omega, ⟨by rw [hcs]; exact hb, by rw [hcs]; exact fun x hx => (hbody x hx).2, ?_⟩,
          by rw [hcs]; omega, ?_⟩
        · rw [hcs]; simp; omega
        · have e1 : front ++ (ds ++ (body ++ NUL :: tl)) = (front ++ ds ++ body ++ [NUL]) ++ tl := by
            simp
          rw [e1, show front.length + ds.length + body.length + 1
              = (front ++ ds ++ body ++ [NUL]).length by
            simp only [List.length_append, List.length_cons, List.length_nil], List.drop_left]
          rw [hsplit] at hn
          rcases List.mem_append.1 hn with h | h
          · have := hds _ h; rw [isDelim_nul] at this; cases this
          · rcases List.mem_append.1 h with h | h
            · exact absurd h hbN
            · rcases List.mem_cons.1 h with h | h
              · exact absurd h.symm hcn
              · exact h

theorem is_token_frame (mem mem1 : Mem) (a k : Nat) (htok : is_token mem a)
    (hk : a + (cstr mem a).length < k) (h : mem1.take k = mem.take k)
    (hlen : mem1.length = mem.length) :
    is_token mem1 a ∧ cstr mem1 a = cstr mem a := by
  have hc := cstr_frame mem mem1 a k h hk htok.2.2
  refine ⟨?_, hc⟩
  unfold is_token
  rw [hc, hlen]
  exact htok

theorem token_loop_none (room : Nat) (mem : Mem) (save : Nat) :
    token_loop room none mem save = ([], mem) := by
  cases room <;> rfl

/-- The loop of the tokenizer leaves the tokens laid out in order, and does not
touch the buffer up to the saved position. -/
theorem token_loop_layout (room : Nat) :
    ∀ (t : Nat) (mem : Mem) (save : Nat) (toks : List Nat) (mem1 : Mem),
      token_loop room (some t) mem save = (toks, mem1) →
      NUL ∈ mem.drop save → is_token mem t → t + (cstr mem t).length ≤ save →
      mem1.length = mem.length ∧ mem1.take (save + 1) = mem.take (save + 1) ∧
        ∀ lo, lo ≤ t → well_laid mem1 lo toks := by
  induction room with
  | zero =>
    intro t mem save toks mem1 h _ _ _
    simp only [token_loop, Prod.mk.injEq] at h
    obtain ⟨h1, h2⟩ := h
    subst h1 h2
    exact ⟨rfl, rfl, fun _ _ => trivial⟩
  | succ room ih =>
    intro t mem save toks mem1 h hn htok hsave
    rcases hst : strtok mem save with ⟨token, m1, s1⟩
    obtain ⟨f1, f2, f3, f4⟩ := strtok_facts mem save hn token m1 s1 hst
    simp only [token_loop, hst] at h
    cases token with
    | none =>
      have hm := f3 rfl
      subst hm
      rw [token_loop_none] at h
      simp only [Prod.mk.injEq] at h
      obtain ⟨h1, h2⟩ := h
      subst h1 h2
      exact ⟨rfl, rfl, fun lo hlo => ⟨hlo, htok, trivial⟩⟩
    | some t1 =>
      obtain ⟨g1, g2, g3, g4⟩ := f4 t1 rfl
      rcases hrec : token_loop room (some t1) m1 s1 with ⟨rest, m2⟩
      rw [hrec] at h
      simp only [Prod.mk.injEq] at h
      obtain ⟨h1, h2⟩ := h
      subst h1 h2
      obtain ⟨i1, i2, i3⟩ := ih t1 m1 s1 rest m2 hrec g4 g2 g3
      have hs1 : save ≤ s1 := by omega
      have htake : m2.take (save + 1) = mem.take (save + 1) := by
        rw [take_eq_of_le i2 (by omega : save + 1 ≤ s1 + 1), f2]
      have hlen : m2.length = mem.length := by rw [i1, f1]
      obtain ⟨j1, j2⟩ := is_token_frame mem m2 t (save + 1) htok (by omega) htake hlen
      refine ⟨hlen, htake, fun lo hlo => ⟨hlo, j1, ?_⟩⟩
      apply i3
      rw [j2]
      -- the next token starts after the terminator of this one
      obtain ⟨k1, k2⟩ := is_token_frame mem m1 t (save + 1) htok (by omega) f2 f1
      have hterm := cstr_at_terminator m1 t k1.2.2
      rw [k2] at hterm
      have hne : t1 ≠ t + (cstr mem t).length := by
        intro e
        rw [← e] at hterm
        exact g2.1 hterm
      omega

/-- The tokens `parse_command` stores in `args` are laid out in order in the
buffer, and the buffer keeps its length. -/
theorem tokenize_layout (input : Mem) (hn : NUL ∈ input) (toks : List Nat) (mem1 : Mem)
    (h : tokenize input = (toks, mem1)) :
    mem1.length = input.length ∧ well_laid mem1 0 toks := by
  unfold tokenize at h
  rcases hst : strtok input 0 with ⟨token, m1, s1⟩
  obtain ⟨f1, -, f3, f4⟩ := strtok_facts input 0 (by simpa using hn) token m1 s1 hst
  rw [hst] at h
  simp only at h
  cases token with
  | none =>
    rw [token_loop_none] at h
    simp only [Prod.mk.injEq] at h
    obtain ⟨h1, h2⟩ := h
    subst h1 h2
    exact ⟨f1, trivial⟩
  | some t =>
    obtain ⟨-, g2, g3, g4⟩ := f4 t rfl
    obtain ⟨i1, -, i3⟩ := token_loop_layout _ t m1 s1 toks mem1 h g4 g2 g3
    exact ⟨by rw [i1, f1], i3 0 (Nat.zero_le _)⟩

/-! ## Lemmas on substitution -/

theorem take_set_ge (l : List Char) (a d : Nat) (c : Char) (h : a ≤ d) :
    (l.set d c).take a = l.take a := by
  induction l generalizing a d with
  | nil => simp
  | cons x xs ih =>
    cases a with
    | zero => simp
    | succ a =>
      cases d with
      | zero => omega
      | succ d => simp [ih a d (by omega)]

theorem strcpy_take (mem : Mem) (a : Nat) (src : List Char) (h : a ≤ mem.length) :
    (strcpy mem a src).take a = mem.take a := by
  unfold strcpy
  rw [List.append_assoc, List.take_append_of_le_length (by rw [List.length_take]; omega),
    List.take_take, Nat.min_self]

theorem strcpy_length (mem : Mem) (a : Nat) (src : List Char) (h : a + src.length < mem.length) :
    (strcpy mem a src).length = mem.length := by
  unfold strcpy
  simp only [List.length_append, List.length_take, List.length_cons, List.length_drop]
  omega

theorem scan_bound (stop : Char → Bool) (l : List Char) (k : Nat) (h : scan stop l = some k) :
    k < l.length := by
  induction l generalizing k with
  | nil => simp [scan] at h
  | cons x xs ih =>
    unfold scan at h
    by_cases hx : x = NUL
    · simp [hx] at h
    · cases hs : stop x with
      | true =>
        simp only [hx, hs, if_true, if_false, Option.some.injEq] at h
        subst h
        simp
      | false =>
        simp only [hx, hs, if_false] at h
        cases hr : scan stop xs with
        | none => rw [hr] at h; simp at h
        | some j =>
          rw [hr] at h
          simp only [Bool.false_eq_true, if_false, Option.map_some', Option.some.injEq] at h
          have := ih j hr
          subst h
          simp
          omega

theorem strchr_ge (mem : Mem) (a : Nat) (c : Char) (d : Nat) (h : strchr mem a c = some d) :
    a ≤ d ∧ d < mem.length := by
  unfold strchr at h
  cases hs : scan (fun x => x == c) (mem.drop a) with
  | none => rw [hs] at h; simp at h
  | some k =>
    rw [hs] at h
    simp only [Option.map_some', Option.some.injEq] at h
    have := scan_bound _ _ _ hs
    rw [List.length_drop] at this
    omega

/-- The `while` loop for the token at `a` leaves the buffer before `a`, and the
length of the buffer, as they were. -/
theorem replace_while_frame (env : Env) (a : Nat) (fuel : Nat) :
    ∀ (mem : Mem) (d : Nat) (mem1 : Mem), a ≤ d → d < mem.length →
      replace_while env a fuel mem d = .ok mem1 →
      mem1.take a = mem.take a ∧ mem1.length = mem.length := by
  induction fuel with
  | zero =>
    intro mem d mem1 _ _ h
    simp [replace_while] at h
  | succ fuel ih =>
    intro mem d mem1 had hd h
    have hset : (mem.set d NUL).take a = mem.take a := take_set_ge mem a d NUL had
    have hsl : (mem.set d NUL).length = mem.length := List.length_set _ _ _
    simp only [replace_while] at h
    split at h
    · cases h
    · split at h
      · split at h
        · cases h
        · split at h
          · cases h
          · rename_i value _ _ hfit
            generalize cstr (mem.set d NUL) a ++ value
                ++ var_rest (mem.set d NUL) (strpbrk (mem.set d NUL) (d + 1)) = temp at h hfit
            have hfit2 : a + temp.length < (mem.set d NUL).length := by omega
            have ht := strcpy_take (mem.set d NUL) a temp (by omega : a ≤ (mem.set d NUL).length)
            have hl := strcpy_length (mem.set d NUL) a temp hfit2
            split at h
            · rename_i d2 hd2
              obtain ⟨b1, b2⟩ := strchr_ge _ _ _ _ hd2
              obtain ⟨r1, r2⟩ := ih _ d2 mem1 b1 b2 h
              exact ⟨by rw [r1, ht, hset], by rw [r2, hl, hsl]⟩
            · cases h
              exact ⟨by rw [ht, hset], by rw [hl, hsl]⟩
      · split at h
        · rename_i d2 hd2
          obtain ⟨b1, b2⟩ := strchr_ge _ _ _ _ hd2
          obtain ⟨r1, r2⟩ := ih _ d2 mem1 b1 b2 h
          exact ⟨by rw [r1, hset], by rw [r2, hsl]⟩
        · cases h
          exact ⟨hset, hsl⟩

theorem replace_token_frame (env : Env) (fuel : Nat) (mem : Mem) (a : Nat) (mem1 : Mem)
    (h : replace_token env fuel mem a = .ok mem1) :
    mem1.take a = mem.take a ∧ mem1.length = mem.length := by
  unfold replace_token at h
  split at h
  · rename_i d hd
    obtain ⟨b1, b2⟩ := strchr_ge _ _ _ _ hd
    exact replace_while_frame env a fuel mem d mem1 b1 b2 h
  · cases h
    exact ⟨rfl, rfl⟩

theorem strchr_none_of_not_mem (mem : Mem) (a : Nat) (c : Char)
    (hin : a + (cstr mem a).length < mem.length) (h : c ∉ cstr mem a) :
    strchr mem a c = none := by
  obtain ⟨pre, post, hlen, hmem⟩ := mem_layout mem a hin
  generalize cstr mem a = body at hmem h
  subst hlen
  rw [hmem, strchr_at, scan_none _ body post (fun x hx => by
    have : x ≠ c := fun e => h (e ▸ hx)
    simpa using this)]
  rfl

theorem first_dollar_split (t : List Char) (h : '$' ∈ t) :
    ∃ p n, t = p ++ '$' :: n ∧ '$' ∉ p := by
  obtain ⟨ds, c, tl, h1, h2, h3⟩ := span_split (fun x => x != '$') t '$' h (by simp)
  have hc : c = '$' := by simpa using h3
  subst hc
  refine ⟨ds, tl, h1, fun hm => ?_⟩
  have := h2 _ hm
  simp at this

theorem get_env_value_mem (env : Env) (key v : List Char) (h : get_env_value env key = some v) :
    ∃ e ∈ env, e.2 = v := by
  induction env with
  | nil => simp [get_env_value] at h
  | cons e rest ih =>
    obtain ⟨name, value⟩ := e
    unfold get_env_value at h
    by_cases hk : name = key
    · simp only [hk, if_true, Option.some.injEq] at h
      exact ⟨(name, value), by simp, h⟩
    · simp only [hk, if_false] at h
      obtain ⟨e, he, hv⟩ := ih h
      exact ⟨e, by simp [he], hv⟩

/-- Substitution in one delimiter-free token completes, within one round of the
`while` loop, when the stored values hold no `$` and, if the token holds a `$`,
nothing overflows. -/
theorem replace_token_total (env : Env) (fuel : Nat) (mem : Mem) (a : Nat)
    (hdelim : ∀ c ∈ cstr mem a, isDelim c = false)
    (hin : a + (cstr mem a).length < mem.length)
    (hwf : ∀ e ∈ env, NUL ∉ e.2 ∧ '$' ∉ e.2)
    (hbuf : mem.length ≤ MAX_INPUT_SIZE)
    (hkey : '$' ∈ cstr mem a → (cstr mem a).length ≤ KEY_SIZE)
    (hfit : '$' ∈ cstr mem a → ∀ e ∈ env, a + (cstr mem a).length + e.2.length < mem.length) :
    ∃ mem1, replace_token env (fuel + 1) mem a = .ok mem1 := by
  by_cases hd : '$' ∈ cstr mem a
  · replace hkey := hkey hd
    replace hfit := hfit hd
    obtain ⟨p, n, ht, hp⟩ := first_dollar_split _ hd
    obtain ⟨pre, post, hlen, hmem⟩ := mem_layout mem a hin
    have hnul := cstr_nul_free mem a
    rw [ht] at hmem hnul hdelim hkey hfit
    subst hlen
    have hmem2 : mem = pre ++ (p ++ '$' :: (n ++ NUL :: post)) := by rw [hmem]; simp
    have hlay := replace_token_layout env fuel pre p n post
      (fun c hc => ⟨fun e => hnul (by simp [← e, hc]), fun e => hp (e ▸ hc)⟩)
      (fun c hc => ⟨fun e => hnul (by simp [← e, hc]), hdelim c (by simp [hc])⟩)
      (fun v hv => by
        obtain ⟨e, he, hev⟩ := get_env_value_mem env n v hv
        rw [← hev]
        exact hwf e he)
    rw [← hmem2] at hlay
    rw [hlay]
    have hk : ¬ KEY_SIZE ≤ n.length := by
      simp only [List.length_append, List.length_cons] at hkey
      omega
    simp only [hk, if_false]
    cases hg : get_env_value env n with
    | none => exact ⟨_, rfl⟩
    | some v =>
      obtain ⟨e, he, hev⟩ := get_env_value_mem env n v hg
      have hf := hfit e he
      rw [hev] at hf
      simp only [List.length_append, List.length_cons] at hf
      have h1 : ¬ MAX_INPUT_SIZE ≤ p.length + v.length := by omega
      have h2 : ¬ mem.length ≤ pre.length + (p.length + v.length) := by omega
      simp only [h1, h2, if_false]
      exact ⟨_, rfl⟩
  · refine ⟨mem, ?_⟩
    unfold replace_token
    rw [strchr_none_of_not_mem mem a '$' hin hd]

/-! ## The store invariant -/

/-- A C string that starts inside another one is its remainder. -/
theorem cstr_suffix (mem : Mem) (a c : Nat) (hin : a + (cstr mem a).length < mem.length)
    (hac : a ≤ c) (hc : c ≤ a + (cstr mem a).length) :
    cstr mem c = (cstr mem a).drop (c - a) ∧ c + (cstr mem c).length = a + (cstr mem a).length := by
  obtain ⟨pre, post, hlen, hmem⟩ := mem_layout mem a hin
  have hnul := cstr_nul_free mem a
  generalize cstr mem a = body at hmem hnul hc hin
  subst hlen
  obtain ⟨k, rfl⟩ : ∃ k, c = pre.length + k := ⟨c - pre.length, by omega⟩
  have hk : k ≤ body.length := by omega
  have hsplit : body = body.take k ++ body.drop k := (List.take_append_drop k body).symm
  have hmem2 : mem = (pre ++ body.take k) ++ (body.drop k ++ NUL :: post) := by
    rw [hmem, List.append_assoc, ← List.append_assoc (body.take k), List.take_append_drop]
  have hl : (pre ++ body.take k).length = pre.length + k := by
    rw [List.length_append, List.length_take, Nat.min_eq_left hk]
  have hnul2 : NUL ∉ body.drop k := fun h => hnul (List.mem_of_mem_drop h)
  have h1 : cstr mem (pre.length + k) = body.drop k := by
    rw [hmem2, ← hl]
    exact cstr_at_body _ _ _ hnul2
  refine ⟨by rw [h1]; congr 1; omega, ?_⟩
  rw [h1, List.length_drop]
  omega

theorem cstr_of_drop_eq (mem mem1 : Mem) (c : Nat) (h : mem1.drop c = mem.drop c) :
    cstr mem1 c = cstr mem c := by
  unfold cstr
  rw [h]

theorem strchr_first (pre p rest : List Char) (hp : ∀ c ∈ p, c ≠ NUL ∧ c ≠ '$') :
    strchr (pre ++ (p ++ '$' :: rest)) pre.length '$' = some (pre.length + p.length) := by
  rw [strchr_at, scan_found _ p '$' _ (fun x hx => ⟨(hp x hx).1, by simpa using (hp x hx).2⟩)
    (by decide) (by simp)]
  rfl

theorem replace_while_zero (env : Env) (a : Nat) (mem : Mem) (d : Nat) :
    replace_while env a 0 mem d = .error .out_of_fuel := rfl

theorem drop_past (p : List Char) (c : Char) (r : List Char) (k : Nat) :
    (p ++ c :: r).drop (p.length + k + 1) = r.drop k := by
  have h1 : p ++ c :: r = (p ++ [c]) ++ r := by simp
  have h2 : p.length + k + 1 = (p ++ [c]).length + k := by
    simp only [List.length_append, List.length_cons, List.length_nil]; omega
  rw [h1, h2, ← List.drop_drop, List.drop_left]

theorem drop_layout (pre p : List Char) (c : Char) (r : List Char) (k : Nat) :
    (pre ++ (p ++ c :: r)).drop (pre.length + (p.length + k) + 1) = r.drop k := by
  have h : pre.length + (p.length + k) + 1 = pre.length + (p.length + k + 1) := by omega
  rw [h, ← List.drop_drop, List.drop_left, drop_past]

/-- One pass of the `for` loop over a fine token: the token is settled
afterwards, and the buffer is changed only from the start of the token to the
terminator of its new text. -/
theorem replace_token_step (env : Env) (fuel : Nat) (mem : Mem) (b : Nat) (mem1 : Mem)
    (hfine : fine mem b) (hwf : ∀ e ∈ env, clean e.2)
    (h : replace_token env fuel mem b = .ok mem1) :
    settled mem1 b ∧ mem1.take b = mem.take b ∧ mem1.length = mem.length ∧
      mem1.drop (b + (cstr mem1 b).length + 1) = mem.drop (b + (cstr mem1 b).length + 1) ∧
      ('$' ∉ cstr mem b → mem1 = mem) := by
  obtain ⟨hin, hdelim⟩ := hfine
  obtain ⟨f1, f2⟩ := replace_token_frame env fuel mem b mem1 h
  by_cases hd : '$' ∈ cstr mem b
  · obtain ⟨p, n, ht, hp⟩ := first_dollar_split _ hd
    obtain ⟨pre, post, hlen, hmem⟩ := mem_layout mem b hin
    have hnul := cstr_nul_free mem b
    rw [ht] at hmem hnul hdelim
    subst hlen
    have hmem2 : mem = pre ++ (p ++ '$' :: (n ++ NUL :: post)) := by rw [hmem]; simp
    have hpc : ∀ c ∈ p, c ≠ NUL ∧ c ≠ '$' :=
      fun c hc => ⟨fun e => hnul (by simp [← e, hc]), fun e => hp (e ▸ hc)⟩
    have hpd : ∀ c ∈ p, isDelim c = false := fun c hc => hdelim c (by simp [hc])
    cases fuel with
    | zero =>
      unfold replace_token at h
      rw [hmem2, strchr_first pre p _ hpc] at h
      simp only [replace_while_zero] at h
      cases h
    | succ fuel =>
      have hlay := replace_token_layout env fuel pre p n post hpc
        (fun c hc => ⟨fun e => hnul (by simp [← e, hc]), hdelim c (by simp [hc])⟩)
        (fun v hv => by
          obtain ⟨e, he, hev⟩ := get_env_value_mem env n v hv
          rw [← hev]
          exact ⟨(hwf e he).1, (hwf e he).2.1⟩)
      rw [← hmem2, h] at hlay
      split at hlay
      · cases hlay
      · split at hlay
        · -- the name is not in the store
          simp only [Except.ok.injEq] at hlay
          have hc1 : cstr mem1 pre.length = p := by
            rw [hlay]; exact cstr_at_body pre p _ (fun h => (hpc _ h).1 rfl)
          refine ⟨⟨⟨?_, by rw [hc1]; exact hpd⟩, by rw [hc1]; exact hp⟩, f1, f2, ?_,
            fun hnd => absurd hd hnd⟩
          · rw [hc1, f2, hmem2]
            simp only [List.length_append, List.length_cons]
            omega
          · rw [hc1, hlay, hmem2]
            have h0 : pre.length + p.length + 1 = pre.length + (p.length + 0) + 1 := by omega
            rw [h0, drop_layout, drop_layout]
        · rename_i v hg
          obtain ⟨e, he, hev⟩ := get_env_value_mem env n v hg
          have hvc : clean v := hev ▸ hwf e he
          split at hlay
          · cases hlay
          · split at hlay
            · cases hlay
            · rename_i hfit
              simp only [Except.ok.injEq] at hlay
              have hc1 : cstr mem1 pre.length = p ++ v := by
                rw [hlay]
                exact cstr_at_body pre (p ++ v) _ (fun h => by
                  rcases List.mem_append.1 h with h | h
                  · exact (hpc _ h).1 rfl
                  · exact hvc.1 h)
              refine ⟨⟨⟨?_, ?_⟩, ?_⟩, f1, f2, ?_, fun hnd => absurd hd hnd⟩
              · rw [hc1, f2, List.length_append]
                omega
              · rw [hc1]
                intro c hc
                rcases List.mem_append.1 hc with h | h
                · exact hpd c h
                · exact hvc.2.2 c h
              · rw [hc1]
                intro hc
                rcases List.mem_append.1 hc with h | h
                · exact hp h
                · exact hvc.2.1 h
              · rw [hc1, hlay, hmem2, List.length_append]
                have h0 : pre.length + (p.length + v.length) + 1
                    = pre.length + ((p ++ v).length + 0) + 1 := by
                  rw [List.length_append]; omega
                have h1 : (pre ++ (p ++ v ++ NUL :: List.drop (p.length + v.length + 1)
                    (p ++ NUL :: (n ++ NUL :: post)))).drop
                      (pre.length + (p.length + v.length) + 1)
                    = (n ++ NUL :: post).drop v.length := by
                  rw [h0, drop_layout, List.drop_zero, drop_past]
                rw [h1, drop_layout]
  · have hm : mem1 = mem := by
      unfold replace_token at h
      rw [strchr_none_of_not_mem mem b '$' hin hd] at h
      simp only [Except.ok.injEq] at h
      exact h.symm
    subst hm
    exact ⟨⟨⟨hin, hdelim⟩, hd⟩, rfl, rfl, rfl, fun _ => rfl⟩

theorem drop_eq_of_le {l1 l2 : List Char} {j k : Nat} (h : l1.drop j = l2.drop j) (hjk : j ≤ k) :
    l1.drop k = l2.drop k := by
  have h1 : (l1.drop j).drop (k - j) = (l2.drop j).drop (k - j) := by rw [h]
  rwa [List.drop_drop, List.drop_drop, Nat.add_sub_cancel' hjk] at h1

/-- A token after the one just rewritten is still fine: it is either a remainder
of the new text or untouched. -/
theorem fine_after_step (mem mem1 : Mem) (b c : Nat) (hbc : b < c) (hfine : fine mem c)
    (hs : settled mem1 b) (hlen : mem1.length = mem.length)
    (hdrop : mem1.drop (b + (cstr mem1 b).length + 1) = mem.drop (b + (cstr mem1 b).length + 1)) :
    fine mem1 c := by
  by_cases hc : c ≤ b + (cstr mem1 b).length
  · obtain ⟨h1, h2⟩ := cstr_suffix mem1 b c hs.1.1 (by omega) hc
    refine ⟨by have := hs.1.1; omega, ?_⟩
    rw [h1]
    exact fun x hx => hs.1.2 x (List.mem_of_mem_drop hx)
  · have h1 : cstr mem1 c = cstr mem c :=
      cstr_of_drop_eq mem mem1 c (drop_eq_of_le hdrop (by omega))
    unfold fine
    rw [h1, hlen]
    exact hfine

/-- A settled token before the one just rewritten keeps its text. -/
theorem settled_after_step (mem mem1 : Mem) (a b : Nat) (hab : a < b) (hs : settled mem a)
    (htake : mem1.take b = mem.take b) (hlen : mem1.length = mem.length)
    (hnoop : '$' ∉ cstr mem b → mem1 = mem) :
    settled mem1 a ∧ cstr mem1 a = cstr mem a := by
  by_cases hb : b ≤ a + (cstr mem a).length
  · obtain ⟨h1, -⟩ := cstr_suffix mem a b hs.1.1 (by omega) hb
    have hm : mem1 = mem := hnoop (by
      rw [h1]
      exact fun hx => hs.2 (List.mem_of_mem_drop hx))
    subst hm
    exact ⟨hs, rfl⟩
  · have h1 : cstr mem1 a = cstr mem a := cstr_frame mem mem1 a b htake (by omega) hs.1.1
    refine ⟨?_, h1⟩
    unfold settled fine
    rw [h1, hlen]
    exact hs

/-- When `replace_variables` returns, every token is settled: fine and without
`$`. Tokens settled before keep their text. -/
theorem replace_variables_settles (env : Env) (fuel : Nat) (hwf : ∀ e ∈ env, clean e.2) :
    ∀ (rest : List Nat) (mem mem2 : Mem),
      rest.Pairwise (fun x y => x < y) → (∀ b ∈ rest, fine mem b) →
      replace_variables env fuel mem (rest.map some ++ [none]) = .ok mem2 →
      mem2.length = mem.length ∧ (∀ b ∈ rest, settled mem2 b) ∧
        ∀ a, settled mem a → (∀ b ∈ rest, a < b) → settled mem2 a ∧ cstr mem2 a = cstr mem a := by
  intro rest
  induction rest with
  | nil =>
    intro mem mem2 _ _ h
    simp only [List.map, List.nil_append, replace_variables, Except.ok.injEq] at h
    subst h
    exact ⟨rfl, (fun b hb => by cases hb), fun a hs _ => ⟨hs, rfl⟩⟩
  | cons b rest ih =>
    intro mem mem2 hsorted hfine h
    simp only [List.map, List.cons_append, replace_variables] at h
    cases hstep : replace_token env fuel mem b with
    | error f => rw [hstep] at h; cases h
    | ok mem1 =>
      rw [hstep] at h
      simp only at h
      obtain ⟨s1, s2, s3, s4, s5⟩ :=
        replace_token_step env fuel mem b mem1 (hfine b (by simp)) hwf hstep
      have hgt : ∀ c ∈ rest, b < c := (List.pairwise_cons.1 hsorted).1
      have hfine1 : ∀ c ∈ rest, fine mem1 c := fun c hc =>
        fine_after_step mem mem1 b c (hgt c hc) (hfine c (by simp [hc])) s1 s3 s4
      obtain ⟨i1, i2, i3⟩ := ih mem1 mem2 (List.pairwise_cons.1 hsorted).2 hfine1 h
      refine ⟨by rw [i1, s3], ?_, ?_⟩
      · intro x hx
        rcases List.mem_cons.1 hx with hx | hx
        · subst hx
          exact (i3 x s1 hgt).1
        · exact i2 x hx
      · intro a hs ha
        obtain ⟨t1, t2⟩ := settled_after_step mem mem1 a b (ha b (by simp)) hs s2 s3 s5
        obtain ⟨u1, u2⟩ := i3 a t1 (fun c hc => ha c (by simp [hc]))
        exact ⟨u1, by rw [u2, t2]⟩

theorem well_laid_sorted (mem : Mem) :
    ∀ (toks : List Nat) (lo : Nat), well_laid mem lo toks →
      toks.Pairwise (fun x y => x < y) ∧ ∀ b ∈ toks, lo ≤ b ∧ is_token mem b := by
  intro toks
  induction toks with
  | nil => intro lo _; exact ⟨List.Pairwise.nil, (fun b hb => by cases hb)⟩
  | cons a rest ih =>
    intro lo h
    obtain ⟨h1, h2, h3⟩ := h
    obtain ⟨i1, i2⟩ := ih _ h3
    refine ⟨List.pairwise_cons.2 ⟨fun c hc => by have := (i2 c hc).1; omega, i1⟩, ?_⟩
    intro b hb
    rcases List.mem_cons.1 hb with hb | hb
    · subst hb; exact ⟨h1, h2⟩
    · exact ⟨by have := (i2 b hb).1; omega, (i2 b hb).2⟩

/-- The tokens the dispatcher sees are settled: they hold no `$`, no delimiter
and no terminator. -/
theorem dispatched_tokens_settled (env : Env) (fuel : Nat) (input : Mem) (toks : List Nat)
    (mem1 mem : Mem) (hwf : ∀ e ∈ env, clean e.2) (hnul : NUL ∈ input)
    (htok : tokenize input = (toks, mem1))
    (hrv : replace_variables env fuel mem1 (toks.map some ++ [none]) = .ok mem) :
    ∀ a ∈ toks, clean (cstr mem a) := by
  obtain ⟨-, hlaid⟩ := tokenize_layout input hnul toks mem1 htok
  obtain ⟨hsorted, htoken⟩ := well_laid_sorted mem1 toks 0 hlaid
  obtain ⟨-, hset, -⟩ := replace_variables_settles env fuel hwf toks mem1 mem hsorted
    (fun b hb => ⟨(htoken b hb).2.2.2, (htoken b hb).2.2.1⟩) hrv
  intro a ha
  exact ⟨cstr_nul_free mem a, (hset a ha).2, (hset a ha).1.2⟩

theorem mem_unset_env (env : Env) (key : List Char) (e : List Char × List Char)
    (h : e ∈ unset_env env key) : e ∈ env := by
  unfold unset_env at h
  split at h
  · unfold remove_env_at at h
    split at h
    · rename_i last hlast
      rcases List.mem_or_eq_of_mem_set (List.mem_of_mem_dropLast h) with h1 | h1
      · exact h1
      · rw [h1]; exact List.mem_of_getLast?_eq_some hlast
    · exact h
  · exact h

theorem getD_mem_of_lt (toks : List Nat) (i : Nat) (h : i < toks.length) :
    toks.getD i 0 ∈ toks := by
  rw [List.getD_eq_getElem _ _ h]
  exact List.getElem_mem h

/-- How one call of `parse_command` changes the store: not at all, by the entry
`set` appends from two dispatched tokens, or by an `unset`. -/
theorem parse_command_env (os : OS) (fuel : Nat) (st : State) (input : Mem) (r : Result)
    (h : parse_command os fuel st input = .ok r) :
    r.state.env_vars = st.env_vars ∨
    (∃ toks mem1 mem, NUL ∈ input ∧ tokenize input = (toks, mem1) ∧
      replace_variables st.env_vars fuel mem1 (toks.map some ++ [none]) = .ok mem ∧
      3 ≤ toks.length ∧ env_var_count st.env_vars < MAX_ENV_VARS ∧
      r.state.env_vars = st.env_vars ++ [(arg_str mem toks 1, arg_str mem toks 2)]) ∨
    (∃ key, r.state.env_vars = unset_env st.env_vars key) := by
  unfold parse_command at h
  split at h
  · cases h
  · rename_i hc
    have hnul : NUL ∈ input := by simpa using hc
    rcases htk : tokenize input with ⟨toks, mem1⟩
    rw [htk] at h
    simp only at h
    split at h
    · cases h; exact Or.inl rfl
    · split at h
      · cases h
      · rename_i mem hrv
        split at h
        · cases h; exact Or.inl rfl
        · split at h
          · split at h
            · cases h; exact Or.inl rfl
            · split at h <;> (cases h; exact Or.inl rfl)
          · split at h
            · split at h <;> (cases h; exact Or.inl rfl)
            · split at h
              · split at h
                · cases h; exact Or.inl rfl
                · split at h
                  · cases h
                  · rename_i h3 hcap
                    cases h
                    exact Or.inr (Or.inl ⟨toks, mem1, mem, hnul, rfl, hrv, by omega,
                      by omega, rfl⟩)
              · split at h
                · split at h
                  · cases h; exact Or.inl rfl
                  · cases h; exact Or.inr (Or.inr ⟨_, rfl⟩)
                · split at h
                  · cases h
                  · cases h; exact Or.inl rfl

/-- The store invariant is kept by `parse_command`. -/
theorem parse_command_store_ok (os : OS) (fuel : Nat) (st : State) (input : Mem) (r : Result)
    (hok : store_ok st.env_vars) (h : parse_command os fuel st input = .ok r) :
    store_ok r.state.env_vars := by
  rcases parse_command_env os fuel st input r h with h1 | ⟨toks, mem1, mem, hnul, htk, hrv, h3, -, h1⟩ | ⟨key, h1⟩
  · rw [h1]; exact hok
  · rw [h1]
    have hclean := dispatched_tokens_settled st.env_vars fuel input toks mem1 mem
      (fun e he => (hok e he).2) hnul htk hrv
    intro e he
    rcases List.mem_append.1 he with he | he
    · exact hok e he
    · simp only [List.mem_singleton] at he
      subst he
      exact ⟨hclean _ (getD_mem_of_lt toks 1 (by omega)), hclean _ (getD_mem_of_lt toks 2 (by omega))⟩
  · rw [h1]
    exact fun e he => hok e (mem_unset_env _ _ e he)

/-- In every reachable state, no stored name and no stored value holds a `$`, a
delimiter or a terminator. -/
theorem reachable_store_ok (st : State) (h : Reachable st) : store_ok st.env_vars := by
  induction h with
  | init => intro e he; cases he
  | step os fuel st input r _ hstep ih => exact parse_command_store_ok os fuel st input r ih hstep

/-! ## Substitution and `set`, for any clean store -/

/-- The loop of `replace_variables` at a token `p$n`, for any store whose value
for `n` is a C string without `$`: the token becomes `p` followed by the value,
or `p` alone when `n` is not in the store. -/
theorem substitutes_of_clean (env : Env) (fuel : Nat) (mem : Mem) (a : Nat)
    (p n : List Char)
    (htok : cstr mem a = p ++ '$' :: n)
    (hterm : a + (p ++ '$' :: n).length < mem.length)
    (hp : '$' ∉ p)
    (hn : ∀ c ∈ n, isDelim c = false)
    (hkey : n.length < KEY_SIZE)
    (hv : ∀ v, get_env_value env n = some v →
      NUL ∉ v ∧ '$' ∉ v ∧ p.length + v.length < MAX_INPUT_SIZE ∧
        a + (p.length + v.length) < mem.length) :
    ∃ mem1,
      cstr mem1 a = (match get_env_value env n with
                     | some v => p ++ v
                     | none => p) ∧
      replace_variables env (fuel + 1) mem [some a, none] = .ok mem1 ∧
      ∀ rest, replace_variables env (fuel + 1) mem (some a :: rest)
        = replace_variables env (fuel + 1) mem1 rest := by
  have hnul : NUL ∉ p ++ '$' :: n := htok ▸ cstr_nul_free mem a
  have hpN : ∀ c ∈ p, c ≠ NUL ∧ c ≠ '$' := fun c hc =>
    ⟨fun e => hnul (by simp [← e, hc]), fun e => hp (e ▸ hc)⟩
  have hnN : ∀ c ∈ n, c ≠ NUL ∧ isDelim c = false := fun c hc =>
    ⟨fun e => hnul (by simp [← e, hc]), hn c hc⟩
  have hsplit := mem_split mem a (by rw [htok]; exact hterm)
  rw [htok] at hsplit
  have hlen : (mem.take a).length = a := by
    rw [List.length_take]; omega
  generalize hpre : mem.take a = pre at hsplit hlen
  generalize mem.drop (a + (p ++ '$' :: n).length + 1) = post at hsplit
  have hmem : mem = pre ++ (p ++ '$' :: (n ++ NUL :: post)) := by
    rw [hsplit]; simp
  have hlay := replace_token_layout env fuel pre p n post hpN hnN
    (fun v h => ⟨(hv v h).1, (hv v h).2.1⟩)
  rw [hlen, ← hmem] at hlay
  have hk : ¬ KEY_SIZE ≤ n.length := by omega
  simp only [hk, if_false] at hlay
  cases hg : get_env_value env n with
  | none =>
    rw [hg] at hlay
    refine ⟨pre ++ (p ++ NUL :: (n ++ NUL :: post)), ?_, ?_, ?_⟩
    · rw [← hlen]
      exact cstr_at_body pre p _ (fun h => (hpN _ h).1 rfl)
    · simp only [replace_variables, hlay]
    · intro rest
      simp only [replace_variables, hlay]
  | some v =>
    rw [hg] at hlay
    obtain ⟨hvN, -, ht, hi⟩ := hv v hg
    have ht2 : ¬ MAX_INPUT_SIZE ≤ p.length + v.length := by omega
    have hi2 : ¬ mem.length ≤ a + (p.length + v.length) := by omega
    simp only [ht2, hi2, if_false] at hlay
    refine ⟨pre ++ (p ++ v ++ NUL :: List.drop (p.length + v.length + 1)
      (p ++ NUL :: (n ++ NUL :: post))), ?_, by simp only [replace_variables, hlay], ?_⟩
    · rw [← hlen]
      exact cstr_at_body pre (p ++ v) _ (fun h => by
        rcases List.mem_append.1 h with h | h
        · exact (hpN _ h).1 rfl
        · exact hvN h)
    · intro rest
      simp only [replace_variables, hlay]

theorem reachable_of_map (os : OS) (fuel : Nat) (st : State) (input : Mem) (st1 : State)
    (h : Reachable st)
    (hm : (parse_command os fuel st input).map (fun r => r.state) = .ok st1) :
    Reachable st1 := by
  cases hp : parse_command os fuel st input with
  | error f => rw [hp] at hm; cases hm
  | ok r =>
    rw [hp] at hm
    simp only [Except.map, Except.ok.injEq] at hm
    rw [← hm]
    exact Reachable.step os fuel st input r h hp

/-- A line of one or two tokens with `set` first, for any store whose values are
C strings without `$`: the store is unchanged and the error is printed. -/
theorem set_missing_argument_of_clean (os : OS) (fuel : Nat) (st : State) (input : Mem)
    (toks : List Nat) (mem1 : Mem)
    (hnul : NUL ∈ input)
    (htok : tokenize input = (toks, mem1))
    (hne : toks ≠ [])
    (hargc : toks.length < 3)
    (hset : arg_str mem1 toks 0 = "set".toList)
    (hwf : ∀ e ∈ st.env_vars, NUL ∉ e.2 ∧ '$' ∉ e.2)
    (hbuf : input.length ≤ MAX_INPUT_SIZE)
    (hkey : ∀ a ∈ toks, '$' ∈ cstr mem1 a → (cstr mem1 a).length ≤ KEY_SIZE)
    (hfit : ∀ a ∈ toks, '$' ∈ cstr mem1 a →
      ∀ e ∈ st.env_vars, a + (cstr mem1 a).length + e.2.length < input.length) :
    ∃ mem, parse_command os (fuel + 1) st input
      = .ok ⟨st, mem, [Event.stderr "set: missing argument\n"]⟩ := by
  obtain ⟨hlen, hlaid⟩ := tokenize_layout input hnul toks mem1 htok
  -- the dispatcher, once substitution has returned
  have hdispatch : ∀ mem, replace_variables st.env_vars (fuel + 1) mem1 (toks.map some ++ [none])
      = .ok mem → arg_str mem toks 0 = "set".toList →
      parse_command os (fuel + 1) st input
        = .ok ⟨st, mem, [Event.stderr "set: missing argument\n"]⟩ := by
    intro mem hrv hcmd
    have hc : input.contains NUL = true := by simpa using hnul
    have h0 : ¬ toks.length = 0 := by
      intro h; exact hne (List.length_eq_zero.1 h)
    have e1 : ¬ ("set".toList = "quit".toList ∨ "set".toList = "exit".toList) := by decide
    have e2 : ¬ "set".toList = "cd".toList := by decide
    have e3 : ¬ "set".toList = "pwd".toList := by decide
    unfold parse_command
    simp only [hc, htok, hrv, hcmd, h0, e1, e2, e3, hargc, Bool.not_true, Bool.false_eq_true,
      if_false, if_true]
  -- the first token holds no `$`
  have hnodollar : '$' ∉ "set".toList := by decide
  match toks, hne, hargc, hset, hkey, hfit, hlaid, hdispatch with
  | [a0], _, _, hset, _, _, hlaid, hdispatch =>
    refine ⟨mem1, hdispatch mem1 ?_ hset⟩
    have hs : cstr mem1 a0 = "set".toList := hset
    obtain ⟨-, ht0, -⟩ := hlaid
    simp only [List.map, List.cons_append, List.nil_append, replace_variables, replace_token]
    rw [strchr_none_of_not_mem mem1 a0 '$' ht0.2.2 (by rw [hs]; exact hnodollar)]
  | [a0, a1], _, _, hset, hkey, hfit, hlaid, hdispatch =>
    have hs : cstr mem1 a0 = "set".toList := hset
    obtain ⟨-, ht0, h01, ht1, -⟩ := hlaid
    obtain ⟨mem2, h2⟩ := replace_token_total st.env_vars fuel mem1 a1 ht1.2.1 ht1.2.2 hwf
      (by omega) (hkey a1 (by simp)) (fun hd e he => by
        have := hfit a1 (by simp) hd e he
        omega)
    obtain ⟨f1, -⟩ := replace_token_frame _ _ _ _ _ h2
    have hc0 : cstr mem2 a0 = cstr mem1 a0 := cstr_frame mem1 mem2 a0 a1 f1 (by omega) ht0.2.2
    refine ⟨mem2, hdispatch mem2 ?_ (by show cstr mem2 a0 = _; rw [hc0, hs])⟩
    simp only [List.map, List.cons_append, List.nil_append, replace_variables]
    have h0 : replace_token st.env_vars (fuel + 1) mem1 a0 = .ok mem1 := by
      unfold replace_token
      rw [strchr_none_of_not_mem mem1 a0 '$' ht0.2.2 (by rw [hs]; exact hnodollar)]
    rw [h0]
    simp only [h2]
  | _ :: _ :: _ :: _, _, hargc, _, _, _, _, _ =>
    simp only [List.length_cons] at hargc
    omega

/-! ## The redirection scan -/

theorem get?_at {α : Type} (pre : List α) (x : α) (rest : List α) :
    (pre ++ x :: rest).get? pre.length = some x := by
  induction pre with
  | nil => rfl
  | cons y ys ih => simpa using ih

theorem get?_at_succ {α : Type} (pre : List α) (x : α) (rest : List α) :
    (pre ++ x :: rest).get? (pre.length + 1) = rest.head? := by
  induction pre with
  | nil => cases rest <;> rfl
  | cons y ys ih => simpa using ih

theorem set_at_gen {α : Type} (pre : List α) (x y : α) (rest : List α) :
    (pre ++ x :: rest).set pre.length y = pre ++ y :: rest := by
  induction pre with
  | nil => rfl
  | cons z zs ih => simp [ih]

theorem set_at_succ {α : Type} (pre : List α) (x y z : α) (rest : List α) :
    (pre ++ x :: y :: rest).set (pre.length + 1) z = pre ++ x :: z :: rest := by
  induction pre with
  | nil => rfl
  | cons w ws ih => simp [ih]

/-- The loop of the redirection scan, from any index on: it returns, and leaves
behind the slots `scanned_args` and the variables `scan_fields`. -/
theorem redirect_scan_spec (os : OS) (mem : Mem) :
    ∀ (rem : List Nat) (done : List (Option Nat)) (s : Scan) (steps : Nat),
      s.args = done ++ (rem.map some ++ [none]) → rem.length + 1 ≤ steps →
      redirect_scan os mem steps done.length s
        = .ok { scan_fields os mem rem { s with args := [] } with
                  args := done ++ scanned_args mem rem } := by
  intro rem
  induction rem with
  | nil =>
    intro done s steps hargs hsteps
    obtain ⟨k, rfl⟩ : ∃ k, steps = k + 1 := ⟨steps - 1, by simp at hsteps; omega⟩
    simp only [List.map, List.nil_append] at hargs
    simp only [redirect_scan, hargs, get?_at, scan_fields, scanned_args]
    rw [← hargs]
  | cons p rest ih =>
    intro done s steps hargs hsteps
    obtain ⟨k, rfl⟩ : ∃ k, steps = k + 1 := ⟨steps - 1, by simp at hsteps; omega⟩
    have hk : rest.length + 1 ≤ k := by simp at hsteps; omega
    simp only [List.map, List.cons_append] at hargs
    by_cases h1 : cstr mem p = "&".toList
    · have hset : s.args.set done.length none = (done ++ [none]) ++ (rest.map some ++ [none]) := by
        rw [hargs, set_at_gen]; simp
      have := ih (done ++ [none]) { s with background := true, args := s.args.set done.length none }
        k hset hk
      simp only [List.length_append, List.length_singleton] at this
      simp only [redirect_scan, hargs, get?_at, h1, if_true, scan_fields, scanned_args]
      rw [hargs] at this
      rw [this]
      simp
    · by_cases h2 : cstr mem p = "<".toList
      · obtain ⟨j, rfl⟩ : ∃ j, k = j + 1 := ⟨k - 1, by omega⟩
        have hhead : (rest.map some ++ [none]).head? = some (rest.head?) := by
          cases rest <;> rfl
        have hcons : rest.map some ++ [none] = rest.head? :: (rest.map some ++ [none]).tail := by
          cases rest <;> rfl
        have hset : (s.args.set done.length none).set (done.length + 1) none
            = done ++ none :: none :: (rest.map some ++ [none]).tail := by
          rw [hargs, set_at_gen, hcons, set_at_succ]
          simp
        have e1 : ¬ "<".toList = "&".toList := by decide
        simp only [redirect_scan, hargs, get?_at, get?_at_succ, hhead, h2, e1, if_true, if_false,
          scan_fields, scanned_args, true_or]
        rw [← hargs, hset]
        have hget : (done ++ none :: none :: (rest.map some ++ [none]).tail).get? (done.length + 1)
            = some none := by
          rw [get?_at_succ]; rfl
        simp only [hget]
      · by_cases h3 : cstr mem p = ">".toList
        · obtain ⟨j, rfl⟩ : ∃ j, k = j + 1 := ⟨k - 1, by omega⟩
          have hhead : (rest.map some ++ [none]).head? = some (rest.head?) := by
            cases rest <;> rfl
          have hcons : rest.map some ++ [none] = rest.head? :: (rest.map some ++ [none]).tail := by
            cases rest <;> rfl
          have hset : (s.args.set done.length none).set (done.length + 1) none
              = done ++ none :: none :: (rest.map some ++ [none]).tail := by
            rw [hargs, set_at_gen, hcons, set_at_succ]
            simp
          have e1 : ¬ ">".toList = "&".toList := by decide
          have e2 : ¬ ">".toList = "<".toList := by decide
          simp only [redirect_scan, hargs, get?_at, get?_at_succ, hhead, h3, e1, e2, if_true,
            if_false, scan_fields, scanned_args, or_true]
          rw [← hargs, hset]
          have hget : (done ++ none :: none :: (rest.map some ++ [none]).tail).get?
              (done.length + 1) = some none := by
            rw [get?_at_succ]; rfl
          simp only [hget]
        · have hargs2 : s.args = (done ++ [some p]) ++ (rest.map some ++ [none]) := by
            rw [hargs]; simp
          have := ih (done ++ [some p]) s k hargs2 hk
          simp only [List.length_append, List.length_singleton] at this
          simp only [redirect_scan, hargs, get?_at, h1, h2, h3, if_false, scan_fields,
            scanned_args, or_self]
          rw [this]
          simp

theorem is_operator_false (t : List Char) :
    is_operator t = false ↔ t ≠ "&".toList ∧ t ≠ "<".toList ∧ t ≠ ">".toList := by
  unfold is_operator
  simp only [Bool.or_eq_false_iff, decide_eq_false_iff_not, and_assoc]

theorem argv_of_scanned (mem : Mem) (toks : List Nat) :
    argv_of mem (scanned_args mem toks)
      = (toks.map (cstr mem)).takeWhile (fun t => !is_operator t) := by
  induction toks with
  | nil => rfl
  | cons p rest ih =>
    rw [List.map_cons, List.takeWhile_cons]
    unfold scanned_args
    by_cases h1 : cstr mem p = "&".toList
    · have hop : is_operator (cstr mem p) = true := by rw [h1]; decide
      rw [if_pos h1, hop]
      rfl
    · rw [if_neg h1]
      by_cases h2 : cstr mem p = "<".toList ∨ cstr mem p = ">".toList
      · have hop : is_operator (cstr mem p) = true := by
          rcases h2 with h | h <;> (rw [h]; decide)
        rw [if_pos h2, hop]
        rfl
      · have hop : is_operator (cstr mem p) = false := by
          rw [is_operator_false]
          exact ⟨h1, fun h => h2 (Or.inl h), fun h => h2 (Or.inr h)⟩
        rw [if_neg h2, hop]
        simp only [argv_of, ih, Bool.not_false, if_true]

theorem scanned_args_length (mem : Mem) (toks : List Nat) :
    (scanned_args mem toks).length = toks.length + 1 := by
  induction toks with
  | nil => rfl
  | cons p rest ih =>
    unfold scanned_args
    split
    · simp [ih]
    · split
      · cases rest <;> simp
      · simp [ih]

/-- The scan opens at most one file, and reports nothing else. -/
theorem scan_fields_events (os : OS) (mem : Mem) (toks : List Nat) :
    ∀ s : Scan, ∃ opened, (scan_fields os mem toks s).events = s.events ++ opened ∧
      opened.length ≤ 1 ∧ ∀ e ∈ opened, ∃ path w fd, e = Event.opened path w fd := by
  induction toks with
  | nil => intro s; exact ⟨[], by simp [scan_fields]⟩
  | cons p rest ih =>
    intro s
    unfold scan_fields
    split
    · exact ih _
    · split
      · exact ⟨[_], rfl, by simp, fun e he => by
          simp only [List.mem_singleton] at he
          exact ⟨_, _, _, he⟩⟩
      · split
        · exact ⟨[_], rfl, by simp, fun e he => by
            simp only [List.mem_singleton] at he
            exact ⟨_, _, _, he⟩⟩
        · exact ih _

/-- A redirection operator as the last token: `open` is called with NULL. -/
theorem scan_fields_last_operator (os : OS) (mem : Mem) (p : Nat)
    (hp : cstr mem p = "<".toList ∨ cstr mem p = ">".toList) :
    ∀ (pre : List Nat) (s : Scan), (∀ a ∈ pre, is_operator (cstr mem a) = false) →
      (scan_fields os mem (pre ++ [p]) s).events
        = s.events ++ [Event.opened none (decide (cstr mem p = ">".toList)) (-1)] := by
  intro pre
  induction pre with
  | nil =>
    intro s _
    rcases hp with h | h
    · have e1 : ¬ "<".toList = "&".toList := by decide
      have e2 : ¬ "<".toList = ">".toList := by decide
      simp [scan_fields, h, e1, e2, sys_open]
    · have e1 : ¬ ">".toList = "&".toList := by decide
      have e2 : ¬ ">".toList = "<".toList := by decide
      simp [scan_fields, h, e1, e2, sys_open]
  | cons a rest ih =>
    intro s hpre
    have ha := (is_operator_false _).1 (hpre a (by simp))
    have := ih s (fun b hb => hpre b (by simp [hb]))
    simp only [List.cons_append, scan_fields, ha.1, ha.2.1, ha.2.2, if_false]
    exact this

theorem token_loop_length (room : Nat) :
    ∀ (tok : Option Nat) (mem : Mem) (save : Nat), (token_loop room tok mem save).1.length ≤ room := by
  induction room with
  | zero => intro tok mem save; simp [token_loop]
  | succ room ih =>
    intro tok mem save
    cases tok with
    | none => simp [token_loop]
    | some t =>
      simp only [token_loop]
      rcases hst : strtok mem save with ⟨token, m1, s1⟩
      have := ih token m1 s1
      rcases hrec : token_loop room token m1 s1 with ⟨rest, m2⟩
      rw [hrec] at this
      simp only [List.length_cons]
      simp at this
      omega

/-- The tokenizer stores at most `MAX_ARGS - 1` tokens. -/
theorem tokenize_length (input : Mem) : (tokenize input).1.length ≤ MAX_ARGS - 1 := by
  unfold tokenize
  rcases hst : strtok input 0 with ⟨token, m1, s1⟩
  exact token_loop_length _ token m1 s1

/-- The `else` branch of `parse_command`: what an external command does, once
substitution has returned. -/
theorem parse_command_external (os : OS) (fuel : Nat) (st : State) (input : Mem)
    (toks : List Nat) (mem1 mem : Mem) (hnul : NUL ∈ input)
    (htok : tokenize input = (toks, mem1)) (hne : toks ≠ [])
    (hrv : replace_variables st.env_vars fuel mem1 (toks.map some ++ [none]) = .ok mem)
    (hext : arg_str mem toks 0 ∉ builtin_names) :
    parse_command os fuel st input =
      .ok ⟨{ st with fds := (scan_fields os mem toks { initial_scan toks st.fds with args := [] }).fds },
        mem,
        (scan_fields os mem toks { initial_scan toks st.fds with args := [] }).events ++
          execute_command os (scan_fields os mem toks { initial_scan toks st.fds with args := [] }).fds
            ((toks.map (cstr mem)).takeWhile (fun t => !is_operator t))
            (scan_fields os mem toks { initial_scan toks st.fds with args := [] }).background
            (scan_fields os mem toks { initial_scan toks st.fds with args := [] }).input_fd
            (scan_fields os mem toks { initial_scan toks st.fds with args := [] }).output_fd⟩ := by
  have hc : input.contains NUL = true := by simpa using hnul
  have h0 : ¬ toks.length = 0 := fun h => hne (List.length_eq_zero.1 h)
  simp only [builtin_names, List.mem_cons, List.mem_singleton, List.not_mem_nil, or_false,
    not_or] at hext
  obtain ⟨e1, e2, e3, e4, e5, e6⟩ := hext
  have hscan := redirect_scan_spec os mem toks [] (initial_scan toks st.fds)
    ((toks.map some ++ [none]).length + 1) rfl (by simp)
  simp only [List.length_nil, List.nil_append] at hscan
  unfold parse_command
  simp only [hc, htok, hrv, h0, e1, e2, e3, e4, e5, e6, Bool.not_true, Bool.false_eq_true,
    if_false, or_self]
  have hinit : (⟨toks.map some ++ [none], false, STDIN_FILENO, STDOUT_FILENO, st.fds, []⟩ : Scan)
      = initial_scan toks st.fds := rfl
  rw [hinit, hscan]
  simp only [argv_of_scanned]

/-! ## The dispatcher on a substituted first token -/

/-- Substitution leaves tokens without `$` alone. -/
theorem replace_variables_no_dollar (env : Env) (fuel : Nat) (mem : Mem) (toks : List Nat)
    (hin : ∀ a ∈ toks, a + (cstr mem a).length < mem.length)
    (hplain : ∀ a ∈ toks, '$' ∉ cstr mem a) :
    replace_variables env fuel mem (toks.map some ++ [none]) = .ok mem := by
  induction toks with
  | nil => rfl
  | cons a rest ih =>
    simp only [List.map, List.cons_append, replace_variables, replace_token]
    rw [strchr_none_of_not_mem mem a '$' (hin a (by simp)) (hplain a (by simp))]
    exact ih (fun b hb => hin b (by simp [hb])) (fun b hb => hplain b (by simp [hb]))

theorem find_env_index_none (env : Env) (key : List Char) (h : find_env_index env key = none) :
    ∀ e ∈ env, e.1 ≠ key := by
  induction env with
  | nil => intro e he; cases he
  | cons x rest ih =>
    obtain ⟨name, value⟩ := x
    unfold find_env_index at h
    by_cases hk : name = key
    · simp [hk] at h
    · simp only [hk, if_false, Option.map_eq_none'] at h
      intro e he
      rcases List.mem_cons.1 he with he | he
      · subst he; exact hk
      · exact ih h e he

theorem find_env_index_of_absent (env : Env) (key : List Char) (h : ∀ e ∈ env, e.1 ≠ key) :
    find_env_index env key = none := by
  induction env with
  | nil => rfl
  | cons x rest ih =>
    obtain ⟨name, value⟩ := x
    unfold find_env_index
    have hk : ¬ name = key := h (name, value) (by simp)
    simp only [hk, if_false, Option.map_eq_none']
    exact ih (fun e he => h e (by simp [he]))

theorem find_env_index_split (l1 : Env) (key v : List Char) (l2 : Env)
    (h : ∀ e ∈ l1, e.1 ≠ key) :
    find_env_index (l1 ++ (key, v) :: l2) key = some l1.length := by
  induction l1 with
  | nil => simp [find_env_index]
  | cons x rest ih =>
    obtain ⟨name, value⟩ := x
    have hk : ¬ name = key := h (name, value) (by simp)
    have hrec := ih (fun e he => h e (by simp [he]))
    simp only [List.cons_append, find_env_index, hk, if_false, List.length_cons]
    show Option.map (fun k => k + 1) (find_env_index (rest ++ (key, v) :: l2) key) = _
    rw [hrec]
    rfl

theorem find_env_index_some (env : Env) (key : List Char) (i : Nat)
    (h : find_env_index env key = some i) :
    ∃ l1 v l2, env = l1 ++ (key, v) :: l2 ∧ l1.length = i ∧ ∀ e ∈ l1, e.1 ≠ key := by
  induction env generalizing i with
  | nil => simp [find_env_index] at h
  | cons x rest ih =>
    obtain ⟨name, value⟩ := x
    unfold find_env_index at h
    by_cases hk : name = key
    · simp only [hk, if_true, Option.some.injEq] at h
      subst hk
      exact ⟨[], value, rest, rfl, h, fun e he => by cases he⟩
    · simp only [hk, if_false] at h
      cases hr : find_env_index rest key with
      | none => rw [hr] at h; simp at h
      | some j =>
        rw [hr] at h
        simp only [Option.map_some', Option.some.injEq] at h
        obtain ⟨l1, v, l2, h1, h2, h3⟩ := ih j hr
        refine ⟨(name, value) :: l1, v, l2, by rw [h1]; rfl, by simp [h2, h], ?_⟩
        intro e he
        rcases List.mem_cons.1 he with he | he
        · subst he; exact hk
        · exact h3 e he

/-- The `unset` loop at its match: the last entry takes the place of the first
entry named `key`. -/
theorem unset_env_split (l1 : Env) (key v : List Char) (l2 : Env)
    (h : ∀ e ∈ l1, e.1 ≠ key) :
    unset_env (l1 ++ (key, v) :: l2) key = l1 ++ (l2.getLast?.toList ++ l2.dropLast) := by
  unfold unset_env
  rw [find_env_index_split l1 key v l2 h]
  simp only [remove_env_at]
  rcases List.eq_nil_or_concat l2 with h2 | ⟨l3, z, h2⟩
  · subst h2
    simp [set_at_gen]
  · rw [List.concat_eq_append] at h2
    subst h2
    have hlast : (l1 ++ (key, v) :: (l3 ++ [z])).getLast? = some z := by
      rw [show l1 ++ (key, v) :: (l3 ++ [z]) = (l1 ++ (key, v) :: l3) ++ [z] by simp]
      exact List.getLast?_concat _
    simp only [hlast, set_at_gen]
    rw [show l1 ++ z :: (l3 ++ [z]) = (l1 ++ z :: l3) ++ [z] by simp, List.dropLast_concat]
    simp

theorem get_env_value_append (l r : Env) (m : List Char) :
    get_env_value (l ++ r) m =
      match get_env_value l m with
      | some v => some v
      | none => get_env_value r m := by
  induction l with
  | nil => rfl
  | cons x rest ih =>
    obtain ⟨name, value⟩ := x
    simp only [List.cons_append, get_env_value]
    by_cases hk : name = m
    · simp [hk]
    · simp only [hk, if_false]
      exact ih

theorem get_env_value_none (l : Env) (m : List Char) (h : ∀ e ∈ l, e.1 ≠ m) :
    get_env_value l m = none := by
  induction l with
  | nil => rfl
  | cons x rest ih =>
    obtain ⟨name, value⟩ := x
    have hk : ¬ name = m := h (name, value) (by simp)
    simp only [get_env_value, hk, if_false]
    exact ih (fun e he => h e (by simp [he]))

/-- With distinct names in the store, `unset key` changes no other lookup. -/
theorem get_env_value_unset (env : Env) (key m : List Char)
    (hnodup : (env.map Prod.fst).Nodup) (hm : m ≠ key) :
    get_env_value (unset_env env key) m = get_env_value env m := by
  cases hf : find_env_index env key with
  | none => simp [unset_env, hf]
  | some i =>
    obtain ⟨l1, v, l2, henv, -, hl1⟩ := find_env_index_some env key i hf
    subst henv
    rw [unset_env_split l1 key v l2 hl1, get_env_value_append, get_env_value_append l1]
    cases get_env_value l1 m with
    | some w => rfl
    | none =>
      simp only
      have hkm : ¬ key = m := fun e => hm e.symm
      simp only [get_env_value, hkm, if_false]
      rcases List.eq_nil_or_concat l2 with h2 | ⟨l3, z, h2⟩
      · subst h2; rfl
      · rw [List.concat_eq_append] at h2
        subst h2
        obtain ⟨zn, zv⟩ := z
        simp only [List.getLast?_concat, Option.toList, List.dropLast_concat, List.singleton_append]
        rw [get_env_value_append l3]
        by_cases hz : zn = m
        · subst hz
          have habs : ∀ e ∈ l3, e.1 ≠ zn := by
            intro e he heq
            have hnd : ((l1 ++ (key, v) :: (l3 ++ [(zn, zv)])).map Prod.fst).Nodup := hnodup
            simp only [List.map_append, List.map_cons, List.map_nil] at hnd
            rw [List.nodup_append] at hnd
            obtain ⟨-, hnd2, -⟩ := hnd
            rw [List.nodup_cons] at hnd2
            obtain ⟨-, hnd3⟩ := hnd2
            rw [List.nodup_append] at hnd3
            obtain ⟨-, -, hdis⟩ := hnd3
            exact hdis (List.mem_map_of_mem Prod.fst he) (by simp [heq])
          rw [get_env_value_none l3 zn habs]
          simp [get_env_value]
        · simp only [get_env_value, hz, if_false]
          cases get_env_value l3 m <;> rfl

theorem unset_env_perm (env : Env) (key : List Char) :
    List.Perm (unset_env env key) (env.eraseP (fun e => decide (e.1 = key))) := by
  cases hf : find_env_index env key with
  | none =>
    have habs := find_env_index_none env key hf
    have : env.eraseP (fun e => decide (e.1 = key)) = env :=
      List.eraseP_of_forall_not (fun e he => by simpa using habs e he)
    simp [unset_env, hf, this]
  | some i =>
    obtain ⟨l1, v, l2, henv, -, hl1⟩ := find_env_index_some env key i hf
    subst henv
    rw [unset_env_split l1 key v l2 hl1,
      List.eraseP_append_right _ (fun e he => by simpa using hl1 e he),
      List.eraseP_cons_of_pos (by simp)]
    apply List.Perm.append_left
    rcases List.eq_nil_or_concat l2 with h2 | ⟨l3, z, h2⟩
    · subst h2; simp
    · rw [List.concat_eq_append] at h2
      subst h2
      simp only [List.getLast?_concat, Option.toList, List.dropLast_concat, List.singleton_append]
      exact (List.perm_append_singleton z l3).symm

/-- The `unset` branch of `parse_command` on a line typed without `$`. -/
theorem parse_command_unset (os : OS) (fuel : Nat) (st : State) (input : Mem)
    (toks : List Nat) (mem1 : Mem) (hnul : NUL ∈ input)
    (htok : tokenize input = (toks, mem1)) (hargc : 2 ≤ toks.length)
    (hcmd : arg_str mem1 toks 0 = "unset".toList)
    (hplain : ∀ a ∈ toks, '$' ∉ cstr mem1 a) :
    parse_command os fuel st input
      = .ok ⟨⟨unset_env st.env_vars (arg_str mem1 toks 1), st.fds⟩, mem1, []⟩ := by
  obtain ⟨-, hlaid⟩ := tokenize_layout input hnul toks mem1 htok
  obtain ⟨-, htoken⟩ := well_laid_sorted mem1 toks 0 hlaid
  have hrv := replace_variables_no_dollar st.env_vars fuel mem1 toks
    (fun a ha => (htoken a ha).2.2.2) hplain
  have hc : input.contains NUL = true := by simpa using hnul
  have h0 : ¬ toks.length = 0 := by omega
  have h2 : ¬ toks.length < 2 := by omega
  have e1 : ¬ ("unset".toList = "quit".toList ∨ "unset".toList = "exit".toList) := by decide
  have e2 : ¬ "unset".toList = "cd".toList := by decide
  have e3 : ¬ "unset".toList = "pwd".toList := by decide
  have e4 : ¬ "unset".toList = "set".toList := by decide
  unfold parse_command
  simp only [hc, htok, hrv, hcmd, h0, h2, e1, e2, e3, e4, Bool.not_true, Bool.false_eq_true,
    if_false, if_true]

/-! ## The tokenizer against the maximal runs of the line -/

theorem maximal_runs_nil : maximal_runs [] = [] := rfl

theorem maximal_runs_delims (ds r : List Char) (hds : ∀ x ∈ ds, isDelim x = true) :
    maximal_runs (ds ++ r) = maximal_runs r := by
  induction ds with
  | nil => rfl
  | cons d ds ih =>
    have hd := hds d (by simp)
    have := ih (fun x hx => hds x (by simp [hx]))
    unfold maximal_runs at *
    rw [List.cons_append, List.splitOnP_cons]
    simp [hd, this]

theorem splitOnP_run (body : List Char) (d : Char) (r : List Char)
    (hbody : ∀ x ∈ body, isDelim x = false) (hd : isDelim d = true) :
    (body ++ d :: r).splitOnP isDelim = body :: r.splitOnP isDelim := by
  induction body with
  | nil => rw [List.nil_append, List.splitOnP_cons]; simp [hd]
  | cons b bs ih =>
    have hb := hbody b (by simp)
    rw [List.cons_append, List.splitOnP_cons, ih (fun x hx => hbody x (by simp [hx]))]
    simp [hb]

theorem splitOnP_no_delim (body : List Char) (hbody : ∀ x ∈ body, isDelim x = false) :
    body.splitOnP isDelim = [body] := by
  induction body with
  | nil => rfl
  | cons b bs ih =>
    have hb := hbody b (by simp)
    rw [List.splitOnP_cons, ih (fun x hx => hbody x (by simp [hx]))]
    simp [hb]

theorem maximal_runs_run (body : List Char) (d : Char) (r : List Char) (hne : body ≠ [])
    (hbody : ∀ x ∈ body, isDelim x = false) (hd : isDelim d = true) :
    maximal_runs (body ++ d :: r) = body :: maximal_runs r := by
  unfold maximal_runs
  rw [splitOnP_run body d r hbody hd]
  cases body with
  | nil => exact absurd rfl hne
  | cons b bs => simp [List.filter_cons]

theorem maximal_runs_single (body : List Char) (hne : body ≠ [])
    (hbody : ∀ x ∈ body, isDelim x = false) :
    maximal_runs body = [body] := by
  unfold maximal_runs
  rw [splitOnP_no_delim body hbody]
  cases body with
  | nil => exact absurd rfl hne
  | cons b bs => simp [List.filter_cons]

theorem takeWhile_keep (q : Char → Bool) (l r : List Char) (h : ∀ x ∈ l, q x = true) :
    (l ++ r).takeWhile q = l ++ r.takeWhile q := by
  induction l with
  | nil => rfl
  | cons x xs ih =>
    have hx := h x (by simp)
    simp [List.takeWhile_cons, hx, ih (fun y hy => h y (by simp [hy]))]

/-- One call of `strtok` takes the first maximal run of the text from the saved
position on, and leaves the rest of the text after the new saved position. -/
theorem strtok_runs (mem : Mem) (save : Nat) (hn : NUL ∈ mem.drop save)
    (tok : Option Nat) (m1 : Mem) (s1 : Nat) (h : strtok mem save = (tok, m1, s1)) :
    (tok = none → maximal_runs (cstr mem save) = []) ∧
      (∀ t, tok = some t →
        maximal_runs (cstr mem save) = cstr m1 t :: maximal_runs (cstr m1 s1)) := by
  obtain ⟨ds, body, c, tl, hsplit, hds, hbody, hc⟩ := delim_split (mem.drop save) hn
  have hsave : save < mem.length := by
    by_contra hlt
    rw [List.drop_of_length_le (by omega)] at hn
    simp at hn
  have hfront : (mem.take save).length = save := by rw [List.length_take]; omega
  have hmem : mem = mem.take save ++ (ds ++ (body ++ c :: tl)) := by
    rw [← hsplit, List.take_append_drop]
  generalize mem.take save = front at hfront hmem
  subst hfront
  have hlay := strtok_layout front ds body c tl hds hbody hc
  rw [← hmem, h] at hlay
  have hbN : NUL ∉ body := fun hb => (hbody _ hb).1 rfl
  have hdsN : ∀ x ∈ ds, (x != NUL) = true := fun x hx => by
    have : x ≠ NUL := fun e => by
      have h1 := hds x hx
      rw [e, isDelim_nul] at h1
      cases h1
    simpa using this
  have hbd : ∀ x ∈ body, isDelim x = false := fun x hx => (hbody x hx).2
  -- the text from the saved position on
  have hcs : cstr mem front.length
      = ds ++ (body ++ (c :: tl).takeWhile (fun x => x != NUL)) := by
    unfold cstr
    rw [hsplit, takeWhile_keep _ ds _ hdsN,
      takeWhile_keep _ body _ (fun x hx => by simpa using (hbody x hx).1)]
  by_cases hb : body = []
  · simp only [hb, if_true, Prod.mk.injEq] at hlay
    obtain ⟨h1, -, -⟩ := hlay
    subst h1
    have hcn : c = NUL := by
      rcases hc with h | h
      · exact h
      · exact absurd hb h.2
    refine ⟨fun _ => ?_, fun t ht => by cases ht⟩
    rw [hcs, hb, hcn]
    simp only [List.nil_append, List.takeWhile_cons, bne_self_eq_false, Bool.false_eq_true,
      if_false]
    rw [maximal_runs_delims ds [] hds]
    rfl
  · simp only [hb, if_false] at hlay
    by_cases hcn : c = NUL
    · simp only [hcn, if_true, Prod.mk.injEq] at hlay
      obtain ⟨h1, h2, h3⟩ := hlay
      subst h1 h2 h3
      refine ⟨(fun h => by cases h), ?_⟩
      intro t ht
      cases ht
      have hct : cstr m1 (front.length + ds.length) = body := by
        rw [hmem, hcn, ← List.append_assoc, ← List.length_append]
        exact cstr_at_body (front ++ ds) body tl hbN
      have hcs1 : cstr m1 (front.length + ds.length + body.length) = [] := by
        have e1 : front ++ (ds ++ (body ++ NUL :: tl)) = (front ++ ds ++ body) ++ ([] ++ NUL :: tl) := by
          simp
        rw [hmem, hcn, e1, show front.length + ds.length + body.length
          = (front ++ ds ++ body).length by simp only [List.length_append]]
        exact cstr_at_body _ [] tl (by simp)
      rw [hcs, hct, hcs1, hcn]
      simp only [List.takeWhile_cons, bne_self_eq_false, Bool.false_eq_true, if_false,
        List.append_nil]
      rw [maximal_runs_delims ds body hds, maximal_runs_single body hb hbd]
      rfl
    · simp only [hcn, if_false, Prod.mk.injEq] at hlay
      obtain ⟨h1, h2, h3⟩ := hlay
      subst h1 h2 h3
      have hcd : isDelim c = true := by
        rcases hc with h | h
        · exact absurd h hcn
        · exact h.1
      refine ⟨(fun h => by cases h), ?_⟩
      intro t ht
      cases ht
      have hct : cstr (front ++ (ds ++ (body ++ NUL :: tl))) (front.length + ds.length) = body := by
        rw [← List.append_assoc, ← List.length_append]
        exact cstr_at_body (front ++ ds) body tl hbN
      have hcs1 : cstr (front ++ (ds ++ (body ++ NUL :: tl)))
          (front.length + ds.length + body.length + 1) = tl.takeWhile (fun x => x != NUL) := by
        have e1 : front ++ (ds ++ (body ++ NUL :: tl)) = (front ++ ds ++ body ++ [NUL]) ++ tl := by
          simp
        rw [e1, show front.length + ds.length + body.length + 1
          = (front ++ ds ++ body ++ [NUL]).length by
            simp only [List.length_append, List.length_cons, List.length_nil]]
        unfold cstr
        rw [List.drop_left]
      have hcne : (c != NUL) = true := by simpa using hcn
      rw [hcs, hct, hcs1]
      simp only [List.takeWhile_cons, hcne, if_true]
      rw [maximal_runs_delims ds _ hds, maximal_runs_run body c _ hb hbd hcd]

/-- The strings of the tokens the tokenizer loop stores: the token already
found, then the maximal runs of the text after the saved position, cut at the
room left in `args`. -/
theorem token_loop_strings (room : Nat) :
    ∀ (t : Nat) (mem : Mem) (save : Nat) (toks : List Nat) (mem1 : Mem),
      token_loop room (some t) mem save = (toks, mem1) →
      NUL ∈ mem.drop save → is_token mem t → t + (cstr mem t).length ≤ save →
      toks.map (cstr mem1) = (cstr mem t :: maximal_runs (cstr mem save)).take room := by
  induction room with
  | zero =>
    intro t mem save toks mem1 h _ _ _
    simp only [token_loop, Prod.mk.injEq] at h
    obtain ⟨h1, -⟩ := h
    subst h1
    rfl
  | succ room ih =>
    intro t mem save toks mem1 h hn htok hsave
    rcases hst : strtok mem save with ⟨token, m1, s1⟩
    obtain ⟨f1, f2, f3, f4⟩ := strtok_facts mem save hn token m1 s1 hst
    obtain ⟨r1, r2⟩ := strtok_runs mem save hn token m1 s1 hst
    simp only [token_loop, hst] at h
    cases token with
    | none =>
      have hm := f3 rfl
      subst hm
      rw [token_loop_none] at h
      simp only [Prod.mk.injEq] at h
      obtain ⟨h1, h2⟩ := h
      subst h1 h2
      rw [r1 rfl]
      simp
    | some t1 =>
      obtain ⟨g1, g2, g3, g4⟩ := f4 t1 rfl
      rcases hrec : token_loop room (some t1) m1 s1 with ⟨rest, m2⟩
      rw [hrec] at h
      simp only [Prod.mk.injEq] at h
      obtain ⟨h1, h2⟩ := h
      subst h1 h2
      have hstr := ih t1 m1 s1 rest m2 hrec g4 g2 g3
      obtain ⟨i1, i2, -⟩ := token_loop_layout room t1 m1 s1 rest m2 hrec g4 g2 g3
      have htake : m2.take (save + 1) = mem.take (save + 1) := by
        rw [take_eq_of_le i2 (by omega : save + 1 ≤ s1 + 1), f2]
      obtain ⟨-, j2⟩ := is_token_frame mem m2 t (save + 1) htok (by omega) htake (by rw [i1, f1])
      rw [List.map_cons, hstr, j2, r2 t1 rfl, List.take_succ_cons]

/-! ## Joining the runs against the normalized line -/

theorem collapse_cons_keep (x : Char) (xs : List Char) (hx : isDelim x = false) :
    collapse_delims (x :: xs) = x :: collapse_delims xs := by
  cases xs with
  | nil => simp [collapse_delims, hx]
  | cons y ys => simp [collapse_delims, hx]

theorem collapse_run (body rest : List Char) (hbody : ∀ x ∈ body, isDelim x = false) :
    collapse_delims (body ++ rest) = body ++ collapse_delims rest := by
  induction body with
  | nil => rfl
  | cons b bs ih =>
    rw [List.cons_append, collapse_cons_keep b _ (hbody b (by simp)),
      ih (fun x hx => hbody x (by simp [hx]))]
    rfl

theorem collapse_gap (ds : List Char) (x : Char) (rest : List Char) (hne : ds ≠ [])
    (hds : ∀ c ∈ ds, isDelim c = true) (hx : isDelim x = false) :
    collapse_delims (ds ++ x :: rest) = ' ' :: collapse_delims (x :: rest) := by
  induction ds with
  | nil => exact absurd rfl hne
  | cons d ds ih =>
    have hd := hds d (by simp)
    cases ds with
    | nil => simp [collapse_delims, hd, hx]
    | cons e es =>
      have he := hds e (by simp)
      have := ih (by simp) (fun c hc => hds c (by simp [hc]))
      simp only [List.cons_append] at this ⊢
      rw [← this]
      simp [collapse_delims, hd, he]

theorem join_spaces_cons (b : List Char) (rest : List (List Char)) (hne : rest ≠ []) :
    join_spaces (b :: rest) = b ++ ' ' :: join_spaces rest := by
  cases rest with
  | nil => exact absurd rfl hne
  | cons r rs => simp [join_spaces, List.intercalate, List.intersperse]

theorem join_spaces_single (b : List Char) : join_spaces [b] = b := by
  simp [join_spaces, List.intercalate, List.intersperse]

theorem splitOnP_delims (ds : List Char) (hds : ∀ c ∈ ds, isDelim c = true) :
    ds.splitOnP isDelim = List.replicate (ds.length + 1) [] := by
  induction ds with
  | nil => rfl
  | cons d ds ih =>
    rw [List.splitOnP_cons, ih (fun c hc => hds c (by simp [hc]))]
    simp [hds d (by simp), List.replicate_succ]

theorem splitOnP_trailing (l ds : List Char) (hds : ∀ c ∈ ds, isDelim c = true) :
    (l ++ ds).splitOnP isDelim = l.splitOnP isDelim ++ List.replicate ds.length [] := by
  induction l with
  | nil =>
    rw [List.nil_append, splitOnP_delims ds hds]
    simp [List.replicate_succ]
  | cons x xs ih =>
    rw [List.cons_append, List.splitOnP_cons, List.splitOnP_cons, ih]
    by_cases hx : isDelim x = true
    · simp [hx]
    · simp only [hx, Bool.false_eq_true, if_false]
      have hne := List.splitOnP_ne_nil isDelim xs
      cases hs : xs.splitOnP isDelim with
      | nil => exact absurd hs hne
      | cons h t => simp

theorem maximal_runs_trailing (l ds : List Char) (hds : ∀ c ∈ ds, isDelim c = true) :
    maximal_runs (l ++ ds) = maximal_runs l := by
  unfold maximal_runs
  rw [splitOnP_trailing l ds hds, List.filter_append]
  have : (List.replicate ds.length ([] : List Char)).filter (fun r => !r.isEmpty) = [] := by
    rw [List.filter_eq_nil_iff]
    intro r hr
    rw [(List.mem_replicate.1 hr).2]
    simp
  rw [this, List.append_nil]

theorem maximal_runs_ne_nil (x : Char) (xs : List Char) (hx : isDelim x = false) :
    maximal_runs (x :: xs) ≠ [] := by
  unfold maximal_runs
  rw [List.splitOnP_cons]
  simp only [hx, Bool.false_eq_true, if_false]
  have hne := List.splitOnP_ne_nil isDelim xs
  cases hs : xs.splitOnP isDelim with
  | nil => exact absurd hs hne
  | cons h t => simp [List.filter_cons]

/-- What `rdropWhile` cuts off is a run of delimiters. -/
theorem rdropWhile_split (l : List Char) :
    ∃ ds, l = l.rdropWhile isDelim ++ ds ∧ ∀ c ∈ ds, isDelim c = true := by
  induction l using List.reverseRecOn with
  | nil => exact ⟨[], by simp, by simp⟩
  | append_singleton l x ih =>
    by_cases hx : isDelim x = true
    · obtain ⟨ds, h1, h2⟩ := ih
      refine ⟨ds ++ [x], ?_, ?_⟩
      · rw [List.rdropWhile_concat_pos _ _ _ hx, ← List.append_assoc, ← h1]
      · intro c hc
        rcases List.mem_append.1 hc with h | h
        · exact h2 c h
        · simp only [List.mem_singleton] at h
          rw [h]; exact hx
    · exact ⟨[], by rw [List.rdropWhile_concat_neg _ _ _ hx]; simp, by simp⟩

/-- After `rdropWhile` no run of delimiters ends the list. -/
theorem rdropWhile_no_trailing (l : List Char) :
    ∀ pre ds, l.rdropWhile isDelim = pre ++ ds → (∀ c ∈ ds, isDelim c = true) → ds = [] := by
  induction l using List.reverseRecOn with
  | nil =>
    intro pre ds h _
    rw [List.rdropWhile_nil] at h
    exact (List.append_eq_nil.1 h.symm).2
  | append_singleton l x ih =>
    by_cases hx : isDelim x = true
    · rw [List.rdropWhile_concat_pos _ _ _ hx]
      exact ih
    · rw [List.rdropWhile_concat_neg _ _ _ hx]
      intro pre ds h hds
      rcases List.eq_nil_or_concat ds with h2 | ⟨ds1, z, h2⟩
      · exact h2
      · rw [List.concat_eq_append] at h2
        subst h2
        rw [← List.append_assoc] at h
        have hz := List.append_inj_right' h rfl
        simp only [List.cons.injEq, and_true] at hz
        exact absurd (hz ▸ hds z (by simp)) hx

theorem dropWhile_head (l : List Char) :
    ∀ x xs, l.dropWhile isDelim = x :: xs → isDelim x = false := by
  induction l with
  | nil => intro x xs h; cases h
  | cons y ys ih =>
    intro x xs h
    rw [List.dropWhile_cons] at h
    by_cases hy : isDelim y = true
    · simp only [hy, if_true] at h
      exact ih x xs h
    · simp only [hy, Bool.false_eq_true, if_false, List.cons.injEq] at h
      rw [← h.1]
      simpa using hy

theorem dropWhile_split (l : List Char) :
    ∃ ds, l = ds ++ l.dropWhile isDelim ∧ ∀ c ∈ ds, isDelim c = true :=
  ⟨l.takeWhile isDelim, (List.takeWhile_append_dropWhile isDelim l).symm,
    fun _ hc => List.mem_takeWhile_imp hc⟩

/-- On a line without leading or trailing delimiters, joining the maximal runs
with single spaces is collapsing every run of delimiters to one space. -/
theorem join_runs_collapse (n : Nat) :
    ∀ l : List Char, l.length ≤ n → (∀ x xs, l = x :: xs → isDelim x = false) →
      (∀ pre ds, l = pre ++ ds → (∀ c ∈ ds, isDelim c = true) → ds = []) →
      join_spaces (maximal_runs l) = collapse_delims l := by
  induction n with
  | zero =>
    intro l hl _ _
    have : l = [] := List.length_eq_zero.1 (by omega)
    subst this
    rfl
  | succ n ih =>
    intro l hl hlead htrail
    cases l with
    | nil => rfl
    | cons x xs =>
      have hx := hlead x xs rfl
      by_cases hex : ∃ y ∈ x :: xs, isDelim y = true
      · obtain ⟨y, hy, hyd⟩ := hex
        obtain ⟨body, d, r, h1, h2, h3⟩ :=
          span_split (fun c => !isDelim c) (x :: xs) y hy (by simp [hyd])
        have hbody : ∀ c ∈ body, isDelim c = false := fun c hc => by simpa using h2 c hc
        have hd : isDelim d = true := by simpa using h3
        have hbne : body ≠ [] := by
          intro hb
          subst hb
          simp only [List.nil_append, List.cons.injEq] at h1
          rw [h1.1, hd] at hx
          cases hx
        have hnd : ∃ z ∈ d :: r, isDelim z = false := by
          by_contra hcon
          have hall : ∀ c ∈ d :: r, isDelim c = true := fun c hc => by
            by_contra hc2
            exact hcon ⟨c, hc, by simpa using hc2⟩
          have := htrail body (d :: r) h1 hall
          cases this
        obtain ⟨z, hz, hzd⟩ := hnd
        obtain ⟨ds, x1, r1, k1, k2, k3⟩ := span_split isDelim (d :: r) z hz hzd
        have hdne : ds ≠ [] := by
          intro hb
          subst hb
          simp only [List.nil_append, List.cons.injEq] at k1
          rw [← k1.1, hd] at k3
          cases k3
        have hlen : (x1 :: r1).length ≤ n := by
          have e1 : (x :: xs).length = body.length + (ds.length + (x1 :: r1).length) := by
            rw [h1, k1]; simp
          have e2 : 0 < body.length := List.length_pos.2 hbne
          omega
        have hrec := ih (x1 :: r1) hlen
          (fun a as h => by
            simp only [List.cons.injEq] at h
            rw [← h.1]; exact k3)
          (fun pre ds1 h hds1 => htrail (body ++ (ds ++ pre)) ds1 (by
            rw [h1, k1, h]; simp) hds1)
        have hruns_r : maximal_runs r = maximal_runs (x1 :: r1) := by
          have e1 : maximal_runs (d :: r) = maximal_runs r :=
            maximal_runs_delims [d] r (fun c hc => by
              simp only [List.mem_singleton] at hc
              rw [hc]; exact hd)
          rw [← e1, k1, maximal_runs_delims ds _ k2]
        rw [h1, maximal_runs_run body d r hbne hbody hd, hruns_r,
          join_spaces_cons body _ (maximal_runs_ne_nil x1 r1 k3), hrec, k1,
          collapse_run body _ hbody, collapse_gap ds x1 r1 hdne k2 k3]
      · have hall : ∀ c ∈ x :: xs, isDelim c = false := fun c hc => by
          by_contra hc2
          exact hex ⟨c, hc, by simpa using hc2⟩
        rw [maximal_runs_single _ (by simp) hall, join_spaces_single]
        have := collapse_run (x :: xs) [] hall
        simpa [collapse_delims] using this.symm

/-- Joining the maximal runs of a line with single spaces gives its normalized
form. -/
theorem join_runs_normalized (line : List Char) :
    join_spaces (maximal_runs line) = normalized line := by
  unfold normalized
  obtain ⟨ds0, h0, hds0⟩ := dropWhile_split line
  obtain ⟨ds1, h1, hds1⟩ := rdropWhile_split (line.dropWhile isDelim)
  have hruns : maximal_runs line
      = maximal_runs ((line.dropWhile isDelim).rdropWhile isDelim) := by
    conv_lhs => rw [h0, maximal_runs_delims ds0 _ hds0, h1, maximal_runs_trailing _ ds1 hds1]
  rw [hruns]
  apply join_runs_collapse _ _ (Nat.le_refl _)
  · intro x xs hs
    obtain ⟨t, ht⟩ := List.rdropWhile_prefix isDelim (l := line.dropWhile isDelim)
    rw [hs] at ht
    exact dropWhile_head line x (xs ++ t) (by rw [← ht]; rfl)
  · exact rdropWhile_no_trailing _

/-- The strings of the tokens stored by `tokenize` are the first `MAX_ARGS - 1`
maximal runs of the line. -/
theorem tokenize_strings (input : Mem) (toks : List Nat) (mem1 : Mem)
    (hnul : NUL ∈ input) (htok : tokenize input = (toks, mem1)) :
    toks.map (cstr mem1) = (maximal_runs (cstr input 0)).take (MAX_ARGS - 1) := by
  unfold tokenize at htok
  rcases hst : strtok input 0 with ⟨token, m1, s1⟩
  have hn0 : NUL ∈ input.drop 0 := by simpa using hnul
  obtain ⟨-, -, -, f4⟩ := strtok_facts input 0 hn0 token m1 s1 hst
  obtain ⟨r1, r2⟩ := strtok_runs input 0 hn0 token m1 s1 hst
  rw [hst] at htok
  simp only at htok
  cases token with
  | none =>
    rw [token_loop_none] at htok
    simp only [Prod.mk.injEq] at htok
    obtain ⟨h1, -⟩ := htok
    subst h1
    rw [r1 rfl]
    rfl
  | some t =>
    obtain ⟨-, g2, g3, g4⟩ := f4 t rfl
    rw [token_loop_strings _ t m1 s1 toks mem1 htok g4 g2 g3, r2 t rfl]

/-! ## Termination of the loop of `replace_variables` -/

/-- The `while` loop on a token whose text is free of delimiters when it holds
a `$` runs at most once when the stored values hold no `$`: the outcome does
not depend on the fuel, and it is never `out_of_fuel`. -/
theorem replace_token_one_round (env : Env) (mem : Mem) (b : Nat)
    (hin : b + (cstr mem b).length < mem.length)
    (hdelim : '$' ∈ cstr mem b → ∀ c ∈ cstr mem b, isDelim c = false)
    (hwf : ∀ e ∈ env, NUL ∉ e.2 ∧ '$' ∉ e.2) :
    (∀ fuel, replace_token env (fuel + 1) mem b = replace_token env 1 mem b) ∧
      replace_token env 1 mem b ≠ .error .out_of_fuel := by
  by_cases hd : '$' ∈ cstr mem b
  · have hdl := hdelim hd
    obtain ⟨p, n, ht, hp⟩ := first_dollar_split _ hd
    obtain ⟨pre, post, hlen, hmem⟩ := mem_layout mem b hin
    have hnul := cstr_nul_free mem b
    rw [ht] at hmem hnul hdl
    subst hlen
    have hmem2 : mem = pre ++ (p ++ '$' :: (n ++ NUL :: post)) := by rw [hmem]; simp
    have hlay : ∀ fuel, replace_token env (fuel + 1) mem pre.length
        = replace_token env 1 mem pre.length ∧
          replace_token env (fuel + 1) mem pre.length ≠ .error .out_of_fuel := by
      intro fuel
      have h1 := replace_token_layout env fuel pre p n post
        (fun c hc => ⟨fun e => hnul (by simp [← e, hc]), fun e => hp (e ▸ hc)⟩)
        (fun c hc => ⟨fun e => hnul (by simp [← e, hc]), hdl c (by simp [hc])⟩)
        (fun v hv => by
          obtain ⟨e, he, hev⟩ := get_env_value_mem env n v hv
          rw [← hev]
          exact hwf e he)
      have h0 := replace_token_layout env 0 pre p n post
        (fun c hc => ⟨fun e => hnul (by simp [← e, hc]), fun e => hp (e ▸ hc)⟩)
        (fun c hc => ⟨fun e => hnul (by simp [← e, hc]), hdl c (by simp [hc])⟩)
        (fun v hv => by
          obtain ⟨e, he, hev⟩ := get_env_value_mem env n v hv
          rw [← hev]
          exact hwf e he)
      rw [← hmem2] at h1 h0
      refine ⟨by rw [h1, h0], ?_⟩
      rw [h1]
      split
      · intro h; cases h
      · split
        · intro h; cases h
        · split
          · intro h; cases h
          · split
            · intro h; cases h
            · intro h; cases h
    exact ⟨fun fuel => (hlay fuel).1, (hlay 0).2⟩
  · have h0 : ∀ fuel, replace_token env fuel mem b = .ok mem := fun fuel => by
      unfold replace_token
      rw [strchr_none_of_not_mem mem b '$' hin hd]
    exact ⟨fun fuel => by rw [h0, h0], by rw [h0]; intro h; cases h⟩

/-- One pass of the `for` loop over a token that is free of delimiters when it
holds a `$`, with stored values that hold no `$`: the token holds no `$`
afterwards, and the buffer is changed only from the start of the token to the
terminator of its new text. -/
theorem replace_token_step_weak (env : Env) (fuel : Nat) (mem : Mem) (b : Nat) (mem1 : Mem)
    (hin : b + (cstr mem b).length < mem.length)
    (hdelim : '$' ∈ cstr mem b → ∀ c ∈ cstr mem b, isDelim c = false)
    (hwf : ∀ e ∈ env, NUL ∉ e.2 ∧ '$' ∉ e.2)
    (h : replace_token env fuel mem b = .ok mem1) :
    b + (cstr mem1 b).length < mem1.length ∧ '$' ∉ cstr mem1 b ∧
      mem1.take b = mem.take b ∧ mem1.length = mem.length ∧
      mem1.drop (b + (cstr mem1 b).length + 1) = mem.drop (b + (cstr mem1 b).length + 1) ∧
      ('$' ∉ cstr mem b → mem1 = mem) := by
  obtain ⟨f1, f2⟩ := replace_token_frame env fuel mem b mem1 h
  by_cases hd : '$' ∈ cstr mem b
  · have hdl := hdelim hd
    obtain ⟨p, n, ht, hp⟩ := first_dollar_split _ hd
    obtain ⟨pre, post, hlen, hmem⟩ := mem_layout mem b hin
    have hnul := cstr_nul_free mem b
    rw [ht] at hmem hnul hdl
    subst hlen
    have hmem2 : mem = pre ++ (p ++ '$' :: (n ++ NUL :: post)) := by rw [hmem]; simp
    have hpc : ∀ c ∈ p, c ≠ NUL ∧ c ≠ '$' :=
      fun c hc => ⟨fun e => hnul (by simp [← e, hc]), fun e => hp (e ▸ hc)⟩
    cases fuel with
    | zero =>
      unfold replace_token at h
      rw [hmem2, strchr_first pre p _ hpc] at h
      simp only [replace_while_zero] at h
      cases h
    | succ fuel =>
      have hlay := replace_token_layout env fuel pre p n post hpc
        (fun c hc => ⟨fun e => hnul (by simp [← e, hc]), hdl c (by simp [hc])⟩)
        (fun v hv => by
          obtain ⟨e, he, hev⟩ := get_env_value_mem env n v hv
          rw [← hev]
          exact hwf e he)
      rw [← hmem2, h] at hlay
      split at hlay
      · cases hlay
      · split at hlay
        · -- the name is not in the store
          simp only [Except.ok.injEq] at hlay
          have hc1 : cstr mem1 pre.length = p := by
            rw [hlay]; exact cstr_at_body pre p _ (fun h => (hpc _ h).1 rfl)
          refine ⟨?_, by rw [hc1]; exact hp, f1, f2, ?_, fun hnd => absurd hd hnd⟩
          · rw [hc1, f2, hmem2]
            simp only [List.length_append, List.length_cons]
            omega
          · rw [hc1, hlay, hmem2]
            have h0 : pre.length + p.length + 1 = pre.length + (p.length + 0) + 1 := by omega
            rw [h0, drop_layout, drop_layout]
        · rename_i v hg
          obtain ⟨e, he, hev⟩ := get_env_value_mem env n v hg
          have hvc : NUL ∉ v ∧ '$' ∉ v := hev ▸ hwf e he
          split at hlay
          · cases hlay
          · split at hlay
            · cases hlay
            · rename_i hfit
              simp only [Except.ok.injEq] at hlay
              have hc1 : cstr mem1 pre.length = p ++ v := by
                rw [hlay]
                exact cstr_at_body pre (p ++ v) _ (fun h => by
                  rcases List.mem_append.1 h with h | h
                  · exact (hpc _ h).1 rfl
                  · exact hvc.1 h)
              refine ⟨?_, ?_, f1, f2, ?_, fun hnd => absurd hd hnd⟩
              · rw [hc1, f2, List.length_append]
                omega
              · rw [hc1]
                intro hc
                rcases List.mem_append.1 hc with h | h
                · exact hp h
                · exact hvc.2 h
              · rw [hc1, hlay, hmem2, List.length_append]
                have h0 : pre.length + (p.length + v.length) + 1
                    = pre.length + ((p ++ v).length + 0) + 1 := by
                  rw [List.length_append]; omega
                have h1 : (pre ++ (p ++ v ++ NUL :: List.drop (p.length + v.length + 1)
                    (p ++ NUL :: (n ++ NUL :: post)))).drop
                      (pre.length + (p.length + v.length) + 1)
                    = (n ++ NUL :: post).drop v.length := by
                  rw [h0, drop_layout, List.drop_zero, drop_past]
                rw [h1, drop_layout]
  · have hm : mem1 = mem := by
      unfold replace_token at h
      rw [strchr_none_of_not_mem mem b '$' hin hd] at h
      simp only [Except.ok.injEq] at h
      exact h.symm
    subst hm
    exact ⟨hin, hd, rfl, rfl, rfl, fun _ => rfl⟩

/-- A token after the one just rewritten is either a remainder of the new text,
so without `$`, or untouched; it is terminated inside the buffer either way. -/
theorem later_token_after_step (mem mem1 : Mem) (b c : Nat) (hbc : b < c)
    (hc : c + (cstr mem c).length < mem.length)
    (hb : b + (cstr mem1 b).length < mem1.length) (hnb : '$' ∉ cstr mem1 b)
    (hlen : mem1.length = mem.length)
    (hdrop : mem1.drop (b + (cstr mem1 b).length + 1) = mem.drop (b + (cstr mem1 b).length + 1)) :
    c + (cstr mem1 c).length < mem1.length ∧ ('$' ∉ cstr mem1 c ∨ cstr mem1 c = cstr mem c) := by
  by_cases hcb : c ≤ b + (cstr mem1 b).length
  · obtain ⟨h1, h2⟩ := cstr_suffix mem1 b c hb (by omega) hcb
    refine ⟨by omega, Or.inl ?_⟩
    rw [h1]
    exact fun hx => hnb (List.mem_of_mem_drop hx)
  · have h1 : cstr mem1 c = cstr mem c :=
      cstr_of_drop_eq mem mem1 c (drop_eq_of_le hdrop (by omega))
    exact ⟨by rw [h1, hlen]; exact hc, Or.inr h1⟩

/-- A token without `$` before the one just rewritten keeps its text. -/
theorem earlier_token_after_step (mem mem1 : Mem) (a b : Nat) (hab : a < b)
    (ha : a + (cstr mem a).length < mem.length) (hna : '$' ∉ cstr mem a)
    (htake : mem1.take b = mem.take b) (hlen : mem1.length = mem.length)
    (hnoop : '$' ∉ cstr mem b → mem1 = mem) :
    a + (cstr mem1 a).length < mem1.length ∧ cstr mem1 a = cstr mem a := by
  by_cases hb : b ≤ a + (cstr mem a).length
  · obtain ⟨h1, -⟩ := cstr_suffix mem a b ha (by omega) hb
    have hm : mem1 = mem := hnoop (by
      rw [h1]
      exact fun hx => hna (List.mem_of_mem_drop hx))
    subst hm
    exact ⟨ha, rfl⟩
  · have h1 : cstr mem1 a = cstr mem a := cstr_frame mem mem1 a b htake (by omega) ha
    exact ⟨by rw [h1, hlen]; exact ha, h1⟩

/-- With stored values that hold no `$`, `replace_variables` over tokens in
increasing order, each free of delimiters when it holds a `$`, needs one round
of the `while` loop per token at most, and leaves no `$` in any token. -/
theorem replace_variables_rounds (env : Env) (hwf : ∀ e ∈ env, NUL ∉ e.2 ∧ '$' ∉ e.2) :
    ∀ (rest : List Nat) (mem : Mem),
      rest.Pairwise (fun x y => x < y) →
      (∀ b ∈ rest, b + (cstr mem b).length < mem.length ∧
        ('$' ∈ cstr mem b → ∀ c ∈ cstr mem b, isDelim c = false)) →
      (∀ fuel, replace_variables env (fuel + 1) mem (rest.map some ++ [none])
          = replace_variables env 1 mem (rest.map some ++ [none])) ∧
        replace_variables env 1 mem (rest.map some ++ [none]) ≠ .error .out_of_fuel ∧
        ∀ mem2, replace_variables env 1 mem (rest.map some ++ [none]) = .ok mem2 →
          mem2.length = mem.length ∧
          (∀ b ∈ rest, b + (cstr mem2 b).length < mem2.length ∧ '$' ∉ cstr mem2 b) ∧
          ∀ a, a + (cstr mem a).length < mem.length → '$' ∉ cstr mem a → (∀ b ∈ rest, a < b) →
            a + (cstr mem2 a).length < mem2.length ∧ cstr mem2 a = cstr mem a := by
  intro rest
  induction rest with
  | nil =>
    intro mem _ _
    refine ⟨fun _ => rfl, (fun h => by cases h), fun mem2 h => ?_⟩
    simp only [List.map, List.nil_append, replace_variables, Except.ok.injEq] at h
    subst h
    exact ⟨rfl, (fun b hb => by cases hb), fun a h1 _ _ => ⟨h1, rfl⟩⟩
  | cons b rest ih =>
    intro mem hsorted hready
    obtain ⟨hb1, hb2⟩ := hready b (by simp)
    obtain ⟨r1, r2⟩ := replace_token_one_round env mem b hb1 hb2 hwf
    have hgt : ∀ c ∈ rest, b < c := (List.pairwise_cons.1 hsorted).1
    simp only [List.map, List.cons_append, replace_variables]
    cases hstep : replace_token env 1 mem b with
    | error f =>
      refine ⟨fun fuel => by rw [r1 fuel, hstep], ?_, fun mem2 h => by cases h⟩
      intro h
      simp only [Except.error.injEq] at h
      exact r2 (by rw [hstep, h])
    | ok mem1 =>
      obtain ⟨s1, s2, s3, s4, s5, s6⟩ :=
        replace_token_step_weak env 1 mem b mem1 hb1 hb2 hwf hstep
      have hready1 : ∀ c ∈ rest, c + (cstr mem1 c).length < mem1.length ∧
          ('$' ∈ cstr mem1 c → ∀ x ∈ cstr mem1 c, isDelim x = false) := fun c hc => by
        obtain ⟨t1, t2⟩ := later_token_after_step mem mem1 b c (hgt c hc)
          (hready c (by simp [hc])).1 s1 s2 s4 s5
        refine ⟨t1, fun hd => ?_⟩
        rcases t2 with t2 | t2
        · exact absurd hd t2
        · rw [t2] at hd ⊢
          exact (hready c (by simp [hc])).2 hd
      obtain ⟨i1, i2, i3⟩ := ih mem1 (List.pairwise_cons.1 hsorted).2 hready1
      refine ⟨fun fuel => by rw [r1 fuel, hstep]; exact i1 fuel, i2, fun mem2 h => ?_⟩
      obtain ⟨j1, j2, j3⟩ := i3 mem2 h
      refine ⟨by rw [j1, s4], ?_, ?_⟩
      · intro x hx
        rcases List.mem_cons.1 hx with hx | hx
        · subst hx
          obtain ⟨u1, u2⟩ := j3 x s1 s2 hgt
          exact ⟨u1, by rw [u2]; exact s2⟩
        · exact j2 x hx
      · intro a ha hna hlt
        obtain ⟨t1, t2⟩ := earlier_token_after_step mem mem1 a b (hlt b (by simp)) ha hna s3 s4 s6
        obtain ⟨u1, u2⟩ := j3 a t1 (by rw [t2]; exact hna) (fun c hc => hlt c (by simp [hc]))
        exact ⟨u1, by rw [u2, t2]⟩

/-- With stored values that hold no `$`, `replace_variables` returns when, for
every token that holds a `$`, the token is free of delimiters, fits `key[128]`,
and leaves room in the buffer for any stored value. -/
theorem replace_variables_returns (env : Env) (hwf : ∀ e ∈ env, NUL ∉ e.2 ∧ '$' ∉ e.2) :
    ∀ (rest : List Nat) (mem : Mem),
      rest.Pairwise (fun x y => x < y) → mem.length ≤ MAX_INPUT_SIZE →
      (∀ b ∈ rest, b + (cstr mem b).length < mem.length ∧
        ('$' ∈ cstr mem b → (∀ c ∈ cstr mem b, isDelim c = false) ∧
          (cstr mem b).length ≤ KEY_SIZE ∧
          ∀ e ∈ env, b + (cstr mem b).length + e.2.length < mem.length)) →
      ∃ mem2, replace_variables env 1 mem (rest.map some ++ [none]) = .ok mem2 := by
  intro rest
  induction rest with
  | nil =>
    intro mem _ _ _
    exact ⟨mem, rfl⟩
  | cons b rest ih =>
    intro mem hsorted hbuf hready
    obtain ⟨hb1, hb2⟩ := hready b (by simp)
    have hgt : ∀ c ∈ rest, b < c := (List.pairwise_cons.1 hsorted).1
    have hstep : ∃ mem1, replace_token env 1 mem b = .ok mem1 := by
      by_cases hd : '$' ∈ cstr mem b
      · exact replace_token_total env 0 mem b (hb2 hd).1 hb1 hwf hbuf
          (fun _ => (hb2 hd).2.1) (fun _ => (hb2 hd).2.2)
      · refine ⟨mem, ?_⟩
        unfold replace_token
        rw [strchr_none_of_not_mem mem b '$' hb1 hd]
    obtain ⟨mem1, hstep⟩ := hstep
    obtain ⟨s1, s2, s3, s4, s5, s6⟩ :=
      replace_token_step_weak env 1 mem b mem1 hb1 (fun hd => (hb2 hd).1) hwf hstep
    have hready1 : ∀ c ∈ rest, c + (cstr mem1 c).length < mem1.length ∧
        ('$' ∈ cstr mem1 c → (∀ x ∈ cstr mem1 c, isDelim x = false) ∧
          (cstr mem1 c).length ≤ KEY_SIZE ∧
          ∀ e ∈ env, c + (cstr mem1 c).length + e.2.length < mem1.length) := fun c hc => by
      obtain ⟨t1, t2⟩ := later_token_after_step mem mem1 b c (hgt c hc)
        (hready c (by simp [hc])).1 s1 s2 s4 s5
      refine ⟨t1, fun hd => ?_⟩
      rcases t2 with t2 | t2
      · exact absurd hd t2
      · rw [t2] at hd ⊢
        rw [s4]
        exact (hready c (by simp [hc])).2 hd
    obtain ⟨mem2, h2⟩ := ih mem1 (List.pairwise_cons.1 hsorted).2 (by rw [s4]; exact hbuf) hready1
    refine ⟨mem2, ?_⟩
    simp only [List.map, List.cons_append, replace_variables, hstep]
    exact h2

/-- One round of the `while` loop on the token `$X`, with `X` bound to `$X`,
leaves the buffer as it was: the loop never ends. -/
theorem self_reference_loops (post : List Char) :
    ∀ fuel, replace_while [("X".toList, "$X".toList)] 0 fuel ('$' :: 'X' :: NUL :: post) 0
      = .error .out_of_fuel := by
  intro fuel
  induction fuel with
  | zero => rfl
  | succ fuel ih =>
    have h1 : strpbrk (NUL :: 'X' :: NUL :: post) 1 = none := by
      simp [strpbrk, scan, isDelim, DELIM, NUL]
    have h2 : cstr (NUL :: 'X' :: NUL :: post) 1 = ['X'] := by
      simp [cstr, NUL]
    have h3 : cstr (NUL :: 'X' :: NUL :: post) 0 = [] := by
      simp [cstr]
    have h4 : strcpy (NUL :: 'X' :: NUL :: post) 0 ['$', 'X'] = '$' :: 'X' :: NUL :: post := by
      simp [strcpy]
    have h5 : strchr ('$' :: 'X' :: NUL :: post) 0 '$' = some 0 := by
      simp [strchr, scan, NUL]
    have h6 : get_env_value [("X".toList, "$X".toList)] ['X'] = some ['$', 'X'] := by decide
    have h7 : ¬ MAX_INPUT_SIZE ≤ 2 := by decide
    have h8 : ¬ KEY_SIZE ≤ 1 := by decide
    unfold replace_while
    simp only [List.set_cons_zero, Nat.zero_add, h1, var_key, var_rest, h2, h3, h6,
      List.nil_append, List.append_nil, List.length_cons, List.length_nil, h4, h5, h7, h8,
      if_false]
    have h9 : ¬ post.length + 1 + 1 + 1 ≤ 2 := by omega
    simp only [h9, if_false]
    exact ih

/-! ## Properties stated by the specification -/

/-- Substitution within the bounds of `key`, `temp` and the line buffer: in every
reachable state of the interpreter, when the loop of `replace_variables` reaches
a token `p$n` (first `$` after the prefix `p`, name `n` running to the end of
the token and free of delimiters), it rewrites the token to `p` followed by the
value `get_env_value` returns for `n`, and to `p` alone when `n` is not in the
store, and goes on with the remaining tokens; on the one-token argument vector
that is the result.  The name fits `key[128]` and the result fits `temp` and the
line buffer. -/
theorem replace_variables_substitutes (st : State) (hreach : Reachable st) (fuel : Nat)
    (mem : Mem) (a : Nat) (p n : List Char)
    (htok : cstr mem a = p ++ '$' :: n)
    (hterm : a + (p ++ '$' :: n).length < mem.length)
    (hp : '$' ∉ p)
    (hn : ∀ c ∈ n, isDelim c = false)
    (hkey : n.length < KEY_SIZE)
    (hfit : ∀ v, get_env_value st.env_vars n = some v →
      p.length + v.length < MAX_INPUT_SIZE ∧ a + (p.length + v.length) < mem.length) :
    ∃ mem1,
      cstr mem1 a = (match get_env_value st.env_vars n with
                     | some v => p ++ v
                     | none => p) ∧
      replace_variables st.env_vars (fuel + 1) mem [some a, none] = .ok mem1 ∧
      ∀ rest, replace_variables st.env_vars (fuel + 1) mem (some a :: rest)
        = replace_variables st.env_vars (fuel + 1) mem1 rest := by
  have hok := reachable_store_ok st hreach
  refine substitutes_of_clean st.env_vars fuel mem a p n htok hterm hp hn hkey ?_
  intro v hv
  obtain ⟨e, he, hev⟩ := get_env_value_mem st.env_vars n v hv
  have hc := (hok e he).2
  rw [hev] at hc
  exact ⟨hc.1, hc.2.1, hfit v hv⟩

/-- Substitution within bounds, on the token `a$X` after the line `set X 1`. -/
theorem replace_variables_substitutes_witness :
    ∃ mem1,
      cstr mem1 0 = (match get_env_value [("X".toList, "1".toList)] "X".toList with
                     | some v => "a".toList ++ v
                     | none => "a".toList) ∧
      replace_variables [("X".toList, "1".toList)] 1 (line_buffer "a$X".toList)
        [some 0, none] = .ok mem1 ∧
      ∀ rest, replace_variables [("X".toList, "1".toList)] 1 (line_buffer "a$X".toList)
          (some 0 :: rest)
        = replace_variables [("X".toList, "1".toList)] 1 mem1 rest :=
  replace_variables_substitutes ⟨[("X".toList, "1".toList)], initial_fds⟩
    (reachable_of_map all_ok 1 initial_state (line_buffer "set X 1".toList) _ Reachable.init
      (by decide!))
    0 (line_buffer "a$X".toList) 0 "a".toList "X".toList
    (by decide!) (by decide!) (by decide!) (by decide!) (by decide!)
    (fun v h => by
      have hv : v = "1".toList := by
        have h1 : get_env_value [("X".toList, "1".toList)] "X".toList = some "1".toList := by
          decide!
        rw [h1] at h
        exact (Option.some.inj h).symm
      subst hv
      decide!)

/-- C1: the token `$` followed by 128 letters `k` splits at its first `$` into
the empty prefix and a name of 128 characters that is not in the empty store,
so it should be rewritten to the empty string; `replace_variables` copies the
name and its terminator, 129 bytes, into `key[128]`.  With 127 letters the name
fits and the token is rewritten to the empty string. -/
theorem long_name_overflows_key :
    (tokenize (line_buffer ('$' :: List.replicate 128 'k'))).1 = [0] ∧
    cstr (tokenize (line_buffer ('$' :: List.replicate 128 'k'))).2 0
      = '$' :: List.replicate 128 'k' ∧
    get_env_value [] (List.replicate 128 'k') = none ∧
    replace_variables [] 8 (tokenize (line_buffer ('$' :: List.replicate 128 'k'))).2
        [some 0, none]
      = .error Fault.key_overflow ∧
    (replace_variables [] 8 (tokenize (line_buffer ('$' :: List.replicate 127 'k'))).2
        [some 0, none]).map (fun m => cstr m 0)
      = .ok [] := by
  decide!

/-- C2: with `A` bound to `1` and `B` to `2`, the token `$A$B` is looked up as the
one name `A$B`, which is not in the store, and is rewritten to the empty string;
`echo x$Ay$B` launches `echo` with the single argument `x`. -/
theorem adjacent_references_lost :
    (replace_variables [("A".toList, "1".toList), ("B".toList, "2".toList)] 8
        (line_buffer "$A$B".toList) [some 0, none]).map (fun m => cstr m 0) = .ok [] ∧
    (parse_command all_ok 8 ⟨[("A".toList, "1".toList), ("B".toList, "2".toList)], initial_fds⟩
        (line_buffer "echo x$Ay$B".toList)).map (fun r => r.events)
      = .ok [Event.spawn ⟨["echo".toList, "x".toList], initial_fds⟩, Event.waitpid] := by
  decide!

/-- C3: on `echo $A $B` with `A` bound to `12345678` and `B` to `x`, the tokens
start at offsets 0, 5 and 8; substituting the third token alone gives `x`, but
`replace_variables` copies the value of `A` over it and leaves `45678` there. -/
theorem long_value_clobbers_next_token :
    (tokenize (line_buffer "echo $A $B".toList)).1 = [0, 5, 8] ∧
    (replace_token [("A".toList, "12345678".toList), ("B".toList, "x".toList)] 8
        (tokenize (line_buffer "echo $A $B".toList)).2 8).map (fun m => cstr m 8)
      = .ok "x".toList ∧
    (replace_variables [("A".toList, "12345678".toList), ("B".toList, "x".toList)] 8
        (tokenize (line_buffer "echo $A $B".toList)).2
        [some 0, some 5, some 8, none]).map (fun m => [cstr m 0, cstr m 5, cstr m 8])
      = .ok ["echo".toList, "12345678".toList, "45678".toList] := by
  decide!

/-- C4: after `set X 1` and `set X 2` the lookup of `X` returns `1`, and a later
`echo $X` launches `echo` with the argument `1`. -/
theorem first_set_wins :
    (main_loop (fun _ => all_ok) 8 0 initial_state fresh_buffer
        ["set X 1\n".toList, "set X 2\n".toList]).map
          (fun r => (r.1.env_vars, get_env_value r.1.env_vars "X".toList))
      = .ok ([("X".toList, "1".toList), ("X".toList, "2".toList)], some "1".toList) ∧
    (main_loop (fun _ => all_ok) 8 0 initial_state fresh_buffer
        ["set X 1\n".toList, "set X 2\n".toList, "echo $X\n".toList]).map (fun r => r.2)
      = .ok [Event.stdout "xsh# ".toList, Event.stdout "xsh# ".toList, Event.stdout "xsh# ".toList,
             Event.spawn ⟨["echo".toList, "1".toList], initial_fds⟩, Event.waitpid,
             Event.stdout "xsh# ".toList] := by
  decide!

/-- C5: after `set X 1`, `set X 2` and `unset X` the lookup of `X` still returns
`2`, and a later `echo a$X` launches `echo` with the argument `a2`. -/
theorem unset_leaves_duplicate :
    (main_loop (fun _ => all_ok) 8 0 initial_state fresh_buffer
        ["set X 1\n".toList, "set X 2\n".toList, "unset X\n".toList]).map
          (fun r => (r.1.env_vars, get_env_value r.1.env_vars "X".toList))
      = .ok ([("X".toList, "2".toList)], some "2".toList) ∧
    (main_loop (fun _ => all_ok) 8 0 initial_state fresh_buffer
        ["set X 1\n".toList, "set X 2\n".toList, "unset X\n".toList,
         "echo a$X\n".toList]).map (fun r => r.2)
      = .ok [Event.stdout "xsh# ".toList, Event.stdout "xsh# ".toList, Event.stdout "xsh# ".toList,
             Event.stdout "xsh# ".toList,
             Event.spawn ⟨["echo".toList, "a2".toList], initial_fds⟩, Event.waitpid,
             Event.stdout "xsh# ".toList] := by
  decide!

/-- C6: `ls > out -l` launches `ls` with the argument vector `[ls]`; the token
`-l` after the redirection is not passed on. -/
theorem tokens_after_redirection_dropped :
    (parse_command all_ok 8 initial_state (line_buffer "ls > out -l".toList)).map
        (fun r => r.events)
      = .ok [Event.opened (some "out".toList) true 3,
             Event.spawn ⟨["ls".toList],
               [(1, Stream.file "out".toList true), (0, Stream.inherited 0),
                (2, Stream.inherited 2)]⟩,
             Event.waitpid] := by
  decide!

/-- C7: on `cmd < in > out &` the scan stops after `<`: the background flag stays
0, the output descriptor stays standard output, `out` is never opened and the
interpreter waits for the child. -/
theorem operators_after_redirection_ignored :
    (tokenize (line_buffer "cmd < in > out &".toList)).1 = [0, 4, 6, 9, 11, 15] ∧
    (redirect_scan all_ok (tokenize (line_buffer "cmd < in > out &".toList)).2 8 0
        ⟨[some 0, some 4, some 6, some 9, some 11, some 15, none], false, STDIN_FILENO,
          STDOUT_FILENO, initial_fds, []⟩).map
          (fun s => (s.background, s.input_fd, s.output_fd))
      = .ok (false, 3, 1) ∧
    (parse_command all_ok 8 initial_state (line_buffer "cmd < in > out &".toList)).map
        (fun r => r.events)
      = .ok [Event.opened (some "in".toList) false 3,
             Event.spawn ⟨["cmd".toList],
               [(0, Stream.file "in".toList false), (1, Stream.inherited 1),
                (2, Stream.inherited 2)]⟩,
             Event.waitpid] := by
  decide!

/-- C8: when `nofile` cannot be opened, `cat < nofile` reports nothing and
launches `cat` with the standard input of the interpreter. -/
theorem failed_open_runs_with_inherited_stdin :
    (parse_command no_files 8 initial_state (line_buffer "cat < nofile".toList)).map
        (fun r => r.events)
      = .ok [Event.opened (some "nofile".toList) false (-1),
             Event.spawn ⟨["cat".toList], initial_fds⟩, Event.waitpid] ∧
    Child.stdin ⟨["cat".toList], initial_fds⟩ = some (Stream.inherited 0) := by
  decide!

/-- C9: a hundred `set` lines fill the store; the next `set` writes
`env_vars[100]`, past the end of the array. -/
theorem set_past_capacity_overflows :
    (main_loop (fun _ => all_ok) 8 0 initial_state fresh_buffer
        (List.replicate 100 "set X 1\n".toList)).map (fun r => env_var_count r.1.env_vars)
      = .ok 100 ∧
    (main_loop (fun _ => all_ok) 8 0 initial_state fresh_buffer
        (List.replicate 101 "set X 1\n".toList)).map (fun r => r.1)
      = .error Fault.env_overflow := by
  decide!

/-- The `set` built-in with a missing argument, within the bounds of `key`,
`temp` and the line buffer: in every reachable state, a line whose first token
is `set` and that has one or two tokens in all leaves the variable store
unchanged and prints `set: missing argument` on the diagnostic stream.  A token
that holds a `$` is at most 128 characters long and leaves room in the line
buffer for any stored value, so that the substitution in it overflows neither
`key`, `temp` nor the buffer. -/
theorem set_missing_argument (os : OS) (fuel : Nat) (st : State) (hreach : Reachable st)
    (input : Mem) (toks : List Nat) (mem1 : Mem)
    (hnul : NUL ∈ input)
    (htok : tokenize input = (toks, mem1))
    (hne : toks ≠ [])
    (hargc : toks.length < 3)
    (hset : arg_str mem1 toks 0 = "set".toList)
    (hbuf : input.length ≤ MAX_INPUT_SIZE)
    (hkey : ∀ a ∈ toks, '$' ∈ cstr mem1 a → (cstr mem1 a).length ≤ KEY_SIZE)
    (hfit : ∀ a ∈ toks, '$' ∈ cstr mem1 a →
      ∀ e ∈ st.env_vars, a + (cstr mem1 a).length + e.2.length < input.length) :
    ∃ mem, parse_command os (fuel + 1) st input
      = .ok ⟨st, mem, [Event.stderr "set: missing argument\n"]⟩ :=
  set_missing_argument_of_clean os fuel st input toks mem1 hnul htok hne hargc hset
    (fun e he => ⟨((reachable_store_ok st hreach) e he).2.1,
      ((reachable_store_ok st hreach) e he).2.2.1⟩)
    hbuf hkey hfit

/-- The `set` built-in with a missing argument, on the line `set $X` after the
line `set X 1`. -/
theorem set_missing_argument_witness :
    ∃ mem, parse_command all_ok 1 ⟨[("X".toList, "1".toList)], initial_fds⟩
        (line_buffer "set $X".toList)
      = .ok ⟨⟨[("X".toList, "1".toList)], initial_fds⟩, mem,
          [Event.stderr "set: missing argument\n"]⟩ :=
  set_missing_argument all_ok 0 ⟨[("X".toList, "1".toList)], initial_fds⟩
    (reachable_of_map all_ok 1 initial_state (line_buffer "set X 1".toList) _ Reachable.init
      (by decide!))
    (line_buffer "set $X".toList) [0, 4] (tokenize (line_buffer "set $X".toList)).2
    (by decide!) (by decide!) (by decide!) (by decide!) (by decide!) (by decide!) (by decide!)
    (by decide!)

/-- C10: the line `set $kkk...k`, with 128 letters `k`, has the first token `set`
and one argument, so it should print `set: missing argument` and leave the
store alone; `parse_command` calls `replace_variables` before it looks at the
first token, and that copies the name and its terminator, 129 bytes, into
`key[128]`: the handler of `set` is not reached.  With 127 letters the name
fits, the message is printed and the store is unchanged. -/
theorem set_with_long_name_overflows_key :
    (tokenize (line_buffer ("set $".toList ++ List.replicate 128 'k'))).1 = [0, 4] ∧
    cstr (tokenize (line_buffer ("set $".toList ++ List.replicate 128 'k'))).2 0
      = "set".toList ∧
    cstr (tokenize (line_buffer ("set $".toList ++ List.replicate 128 'k'))).2 4
      = '$' :: List.replicate 128 'k' ∧
    (parse_command all_ok 8 initial_state
        (line_buffer ("set $".toList ++ List.replicate 128 'k'))).map
          (fun r => (r.state.env_vars, r.events))
      = .error Fault.key_overflow ∧
    (parse_command all_ok 8 initial_state
        (line_buffer ("set $".toList ++ List.replicate 127 'k'))).map
          (fun r => (r.state.env_vars, r.events))
      = .ok ([], [Event.stderr "set: missing argument\n"]) := by
  decide!

/-- C13: on a line that holds only delimiters (or nothing) `parse_command` finds
no token and does nothing: it returns the state it was given, variables and
descriptors, with the buffer untouched and no event at all. -/
theorem blank_line_no_action (os : OS) (fuel : Nat) (st : State) (input : Mem)
    (hnul : NUL ∈ input) (hblank : ∀ c ∈ cstr input 0, isDelim c = true) :
    tokenize input = ([], input) ∧ parse_command os fuel st input = .ok ⟨st, input, []⟩ := by
  obtain ⟨ds, body, c, tl, hsplit, hds, hbody, hc⟩ := delim_split input hnul
  have hcs : cstr input 0 = ds ++ (body ++ (c :: tl).takeWhile (fun x => x != NUL)) := by
    unfold cstr
    rw [List.drop_zero, hsplit, List.takeWhile_append_of_pos (fun x hx => by
        have : x ≠ NUL := fun e => by
          have h1 := hds x hx
          rw [e, isDelim_nul] at h1
          cases h1
        simpa using this),
      List.takeWhile_append_of_pos (fun x hx => by simpa using (hbody x hx).1)]
  have hb : body = [] := by
    cases body with
    | nil => rfl
    | cons b bs =>
      have h1 := hblank b (by rw [hcs]; simp)
      rw [(hbody b (by simp)).2] at h1
      cases h1
  subst hb
  have hlay := strtok_layout [] ds [] c tl hds hbody hc
  simp only [List.nil_append, List.length_nil, if_true, Nat.zero_add] at hlay
  rw [← List.nil_append (c :: tl), ← hsplit] at hlay
  have htok : tokenize input = ([], input) := by
    unfold tokenize
    rw [hlay]
    exact token_loop_none _ _ _
  refine ⟨htok, ?_⟩
  have hcn : input.contains NUL = true := by simpa using hnul
  unfold parse_command
  simp only [hcn, htok, Bool.not_true, Bool.false_eq_true, if_false, List.length_nil, if_true]

/-- C13, witness: a line of three spaces. -/
theorem blank_line_no_action_witness :
    tokenize (line_buffer "   ".toList) = ([], line_buffer "   ".toList) ∧
    parse_command all_ok 1 initial_state (line_buffer "   ".toList)
      = .ok ⟨initial_state, line_buffer "   ".toList, []⟩ :=
  blank_line_no_action all_ok 1 initial_state (line_buffer "   ".toList) (by decide!) (by decide!)

/-- C17: in every state reachable from the initial one, no stored name and no
stored value holds a `$` or a delimiter. -/
theorem store_invariant (st : State) (h : Reachable st) :
    ∀ e ∈ st.env_vars,
      ('$' ∉ e.1 ∧ ∀ c ∈ e.1, isDelim c = false) ∧ ('$' ∉ e.2 ∧ ∀ c ∈ e.2, isDelim c = false) :=
  fun e he =>
    ⟨⟨((reachable_store_ok st h) e he).1.2.1, ((reachable_store_ok st h) e he).1.2.2⟩,
      ⟨((reachable_store_ok st h) e he).2.2.1, ((reachable_store_ok st h) e he).2.2.2⟩⟩

/-- C17, witness: the store after the line `set X 1`. -/
theorem store_invariant_witness :
    Reachable ⟨[("X".toList, "1".toList)], initial_fds⟩ ∧
      ('$' ∉ "X".toList ∧ ∀ c ∈ "X".toList, isDelim c = false) ∧
      ('$' ∉ "1".toList ∧ ∀ c ∈ "1".toList, isDelim c = false) :=
  have hreach : Reachable ⟨[("X".toList, "1".toList)], initial_fds⟩ :=
    reachable_of_map all_ok 1 initial_state (line_buffer "set X 1".toList) _ Reachable.init
      (by decide!)
  ⟨hreach, store_invariant ⟨[("X".toList, "1".toList)], initial_fds⟩ hreach
    ("X".toList, "1".toList) (List.mem_singleton.2 rfl)⟩

/-- C16: after `ls > out` the interpreter still holds descriptor 3, opened on
`out`; the same when `fork` fails. The descriptors before were 0, 1 and 2. -/
theorem redirection_descriptor_leaks :
    (parse_command all_ok 8 initial_state (line_buffer "ls > out".toList)).map
        (fun r => r.state.fds)
      = .ok [(3, Stream.file "out".toList true), (0, Stream.inherited 0),
             (1, Stream.inherited 1), (2, Stream.inherited 2)] ∧
    (parse_command ⟨fun _ _ => true, fun _ => true, none, false⟩ 8 initial_state
        (line_buffer "ls > out".toList)).map (fun r => (r.state.fds, r.events))
      = .ok ([(3, Stream.file "out".toList true), (0, Stream.inherited 0),
              (1, Stream.inherited 1), (2, Stream.inherited 2)],
             [Event.opened (some "out".toList) true 3, Event.perror "Fork failed"]) := by
  decide!

/-- C19: for an external command, once substitution has returned, the
redirection scan returns having opened at most one file, the argument vector it
leaves for `execvp` is the longest prefix of the tokens that holds none of `&`,
`<`, `>`, and that is the vector `parse_command` hands to `execute_command`:
every token after the first operator is dropped. -/
theorem argv_is_longest_operator_free_prefix (os : OS) (fuel : Nat) (st : State) (input : Mem)
    (toks : List Nat) (mem1 mem : Mem) (hnul : NUL ∈ input)
    (htok : tokenize input = (toks, mem1)) (hne : toks ≠ [])
    (hrv : replace_variables st.env_vars fuel mem1 (toks.map some ++ [none]) = .ok mem)
    (hext : arg_str mem toks 0 ∉ builtin_names) :
    ∃ s, redirect_scan os mem ((initial_scan toks st.fds).args.length + 1) 0
          (initial_scan toks st.fds) = .ok s ∧
      s.events.length ≤ 1 ∧ (∀ e ∈ s.events, ∃ path w fd, e = Event.opened path w fd) ∧
      argv_of mem s.args = (toks.map (cstr mem)).takeWhile (fun t => !is_operator t) ∧
      parse_command os fuel st input =
        .ok ⟨{ st with fds := s.fds }, mem,
          s.events ++ execute_command os s.fds
            ((toks.map (cstr mem)).takeWhile (fun t => !is_operator t))
            s.background s.input_fd s.output_fd⟩ := by
  have hscan := redirect_scan_spec os mem toks [] (initial_scan toks st.fds)
    ((initial_scan toks st.fds).args.length + 1) rfl (by simp [initial_scan])
  simp only [List.length_nil, List.nil_append] at hscan
  obtain ⟨opened, ho1, ho2, ho3⟩ :=
    scan_fields_events os mem toks { initial_scan toks st.fds with args := [] }
  have hev : (scan_fields os mem toks { initial_scan toks st.fds with args := [] }).events
      = opened := by
    rw [ho1]; rfl
  refine ⟨_, hscan, ?_, ?_, ?_, ?_⟩
  · show (scan_fields os mem toks _).events.length ≤ 1
    rw [hev]; exact ho2
  · show ∀ e ∈ (scan_fields os mem toks _).events, _
    rw [hev]; exact ho3
  · exact argv_of_scanned mem toks
  · exact parse_command_external os fuel st input toks mem1 mem hnul htok hne hrv hext

/-- C19, witness: the line `ls -l > out x`. -/
theorem argv_is_longest_operator_free_prefix_witness :
    ∃ s, redirect_scan all_ok (tokenize (line_buffer "ls -l > out x".toList)).2
          ((initial_scan [0, 3, 6, 8, 12] initial_fds).args.length + 1) 0
          (initial_scan [0, 3, 6, 8, 12] initial_fds) = .ok s ∧
      s.events.length ≤ 1 ∧ (∀ e ∈ s.events, ∃ path w fd, e = Event.opened path w fd) ∧
      argv_of (tokenize (line_buffer "ls -l > out x".toList)).2 s.args
        = (([0, 3, 6, 8, 12] : List Nat).map
            (cstr (tokenize (line_buffer "ls -l > out x".toList)).2)).takeWhile
              (fun t => !is_operator t) ∧
      parse_command all_ok 1 initial_state (line_buffer "ls -l > out x".toList) =
        .ok ⟨{ initial_state with fds := s.fds }, (tokenize (line_buffer "ls -l > out x".toList)).2,
          s.events ++ execute_command all_ok s.fds
            ((([0, 3, 6, 8, 12] : List Nat).map
              (cstr (tokenize (line_buffer "ls -l > out x".toList)).2)).takeWhile
                (fun t => !is_operator t))
            s.background s.input_fd s.output_fd⟩ :=
  argv_is_longest_operator_free_prefix all_ok 1 initial_state (line_buffer "ls -l > out x".toList)
    [0, 3, 6, 8, 12] (tokenize (line_buffer "ls -l > out x".toList)).2
    (tokenize (line_buffer "ls -l > out x".toList)).2
    (by decide!) (by decide!) (by decide!) (by decide!) (by decide!)

/-- C20: for at most 63 tokens the argument array has at most 64 initialised
slots, `args[0]` to `args[argc]`, and the redirection scan returns without
touching a slot past `args[argc]` (an access past it is the fault `args_bounds`
of the embedding); when `<` or `>` is the last token, the slot after it is the
terminating NULL and `open` is called with NULL. -/
theorem scan_stays_inside_args (os : OS) (mem : Mem) (toks : List Nat) (fds : FdTable)
    (hmax : toks.length ≤ MAX_ARGS - 1) :
    (initial_scan toks fds).args.length = toks.length + 1 ∧ toks.length + 1 ≤ MAX_ARGS ∧
    (∃ s, redirect_scan os mem ((initial_scan toks fds).args.length + 1) 0 (initial_scan toks fds)
        = .ok s ∧ s.args.length = toks.length + 1) ∧
    (∀ pre p, toks = pre ++ [p] → (∀ a ∈ pre, is_operator (cstr mem a) = false) →
      (cstr mem p = "<".toList ∨ cstr mem p = ">".toList) →
      ∃ s, redirect_scan os mem ((initial_scan toks fds).args.length + 1) 0
          (initial_scan toks fds) = .ok s ∧
        s.events = [Event.opened none (decide (cstr mem p = ">".toList)) (-1)]) := by
  have hscan := redirect_scan_spec os mem toks [] (initial_scan toks fds)
    ((initial_scan toks fds).args.length + 1) rfl (by simp [initial_scan])
  simp only [List.length_nil, List.nil_append] at hscan
  refine ⟨by simp [initial_scan], by unfold MAX_ARGS at *; omega, ⟨_, hscan, ?_⟩, ?_⟩
  · exact scanned_args_length mem toks
  · intro pre p htoks hpre hp
    refine ⟨_, hscan, ?_⟩
    show (scan_fields os mem toks _).events = _
    rw [htoks, scan_fields_last_operator os mem p hp pre _ hpre]
    rfl

/-- C20, witness: the line `cmd <`. -/
theorem scan_stays_inside_args_witness :
    (initial_scan [0, 4] initial_fds).args.length = ([0, 4] : List Nat).length + 1 ∧
    ([0, 4] : List Nat).length + 1 ≤ MAX_ARGS ∧
    (∃ s, redirect_scan all_ok (tokenize (line_buffer "cmd <".toList)).2
        ((initial_scan [0, 4] initial_fds).args.length + 1) 0 (initial_scan [0, 4] initial_fds)
        = .ok s ∧ s.args.length = ([0, 4] : List Nat).length + 1) ∧
    (∀ pre p, [0, 4] = pre ++ [p] →
      (∀ a ∈ pre, is_operator (cstr (tokenize (line_buffer "cmd <".toList)).2 a) = false) →
      (cstr (tokenize (line_buffer "cmd <".toList)).2 p = "<".toList ∨
        cstr (tokenize (line_buffer "cmd <".toList)).2 p = ">".toList) →
      ∃ s, redirect_scan all_ok (tokenize (line_buffer "cmd <".toList)).2
          ((initial_scan [0, 4] initial_fds).args.length + 1) 0
          (initial_scan [0, 4] initial_fds) = .ok s ∧
        s.events = [Event.opened none
          (decide (cstr (tokenize (line_buffer "cmd <".toList)).2 p = ">".toList)) (-1)]) :=
  scan_stays_inside_args all_ok (tokenize (line_buffer "cmd <".toList)).2 [0, 4] initial_fds
    (by decide)

/-- C15, as the code has it: a line `unset n` typed without `$` returns the store
in which the last entry has taken the place of the first entry named `n` and
the count has dropped by one.  The entries are those of the store without that
first entry, in another order; the store is unchanged when no entry is named
`n`; and when the names in the store are distinct, the lookup of every other
name is the same before and after. -/
theorem unset_moves_last_entry (os : OS) (fuel : Nat) (st : State) (input : Mem)
    (toks : List Nat) (mem1 : Mem) (hnul : NUL ∈ input)
    (htok : tokenize input = (toks, mem1)) (hargc : 2 ≤ toks.length)
    (hcmd : arg_str mem1 toks 0 = "unset".toList)
    (hplain : ∀ a ∈ toks, '$' ∉ cstr mem1 a) :
    parse_command os fuel st input
      = .ok ⟨⟨unset_env st.env_vars (arg_str mem1 toks 1), st.fds⟩, mem1, []⟩ ∧
    (∀ l1 v l2, st.env_vars = l1 ++ (arg_str mem1 toks 1, v) :: l2 →
      (∀ e ∈ l1, e.1 ≠ arg_str mem1 toks 1) →
      unset_env st.env_vars (arg_str mem1 toks 1) = l1 ++ (l2.getLast?.toList ++ l2.dropLast)) ∧
    List.Perm (unset_env st.env_vars (arg_str mem1 toks 1))
      (st.env_vars.eraseP (fun e => decide (e.1 = arg_str mem1 toks 1))) ∧
    ((∀ e ∈ st.env_vars, e.1 ≠ arg_str mem1 toks 1) →
      unset_env st.env_vars (arg_str mem1 toks 1) = st.env_vars) ∧
    ((st.env_vars.map Prod.fst).Nodup → ∀ m, m ≠ arg_str mem1 toks 1 →
      get_env_value (unset_env st.env_vars (arg_str mem1 toks 1)) m
        = get_env_value st.env_vars m) := by
  refine ⟨parse_command_unset os fuel st input toks mem1 hnul htok hargc hcmd hplain, ?_,
    unset_env_perm _ _, ?_, fun hnd m hm => get_env_value_unset _ _ m hnd hm⟩
  · intro l1 v l2 henv hl1
    rw [henv]
    exact unset_env_split l1 _ v l2 hl1
  · intro habs
    unfold unset_env
    rw [find_env_index_of_absent _ _ habs]

/-- C15, witness: the line `unset A` on the store A=1, B=2, C=3. -/
theorem unset_moves_last_entry_witness :
    parse_command all_ok 1
        ⟨[("A".toList, "1".toList), ("B".toList, "2".toList), ("C".toList, "3".toList)],
          initial_fds⟩ (line_buffer "unset A".toList)
      = .ok ⟨⟨unset_env
          [("A".toList, "1".toList), ("B".toList, "2".toList), ("C".toList, "3".toList)]
          (arg_str (tokenize (line_buffer "unset A".toList)).2 [0, 6] 1), initial_fds⟩,
        (tokenize (line_buffer "unset A".toList)).2, []⟩ ∧
    unset_env [("A".toList, "1".toList), ("B".toList, "2".toList), ("C".toList, "3".toList)]
        (arg_str (tokenize (line_buffer "unset A".toList)).2 [0, 6] 1)
      = [("C".toList, "3".toList), ("B".toList, "2".toList)] :=
  ⟨(unset_moves_last_entry all_ok 1
      ⟨[("A".toList, "1".toList), ("B".toList, "2".toList), ("C".toList, "3".toList)],
        initial_fds⟩ (line_buffer "unset A".toList) [0, 6]
      (tokenize (line_buffer "unset A".toList)).2
      (by decide!) (by decide!) (by decide!) (by decide!) (by decide!)).1,
    by decide!⟩

/-- C15, counterexample: after `set A 1`, `set B 2`, `set C 3`, the line `unset A`
leaves C before B, not the store without its first entry in the same order; and
after `set A 1`, `set M a`, `set M b`, the line `unset A` changes the lookup of
`M` from `a` to `b`. -/
theorem unset_reorders_entries :
    (main_loop (fun _ => all_ok) 8 0 initial_state fresh_buffer
        ["set A 1\n".toList, "set B 2\n".toList, "set C 3\n".toList, "unset A\n".toList]).map
          (fun r => r.1.env_vars)
      = .ok [("C".toList, "3".toList), ("B".toList, "2".toList)] ∧
    List.eraseP (fun e => decide (e.1 = "A".toList))
        [("A".toList, "1".toList), ("B".toList, "2".toList), ("C".toList, "3".toList)]
      = [("B".toList, "2".toList), ("C".toList, "3".toList)] ∧
    (main_loop (fun _ => all_ok) 8 0 initial_state fresh_buffer
        ["set A 1\n".toList, "set M a\n".toList, "set M b\n".toList]).map
          (fun r => get_env_value r.1.env_vars "M".toList)
      = .ok (some "a".toList) ∧
    (main_loop (fun _ => all_ok) 8 0 initial_state fresh_buffer
        ["set A 1\n".toList, "set M a\n".toList, "set M b\n".toList, "unset A\n".toList]).map
          (fun r => get_env_value r.1.env_vars "M".toList)
      = .ok (some "b".toList) := by
  decide!

/-- C11: the strings of the tokens `parse_command` stores in `args` are the
maximal runs of non-delimiter characters of the line, in order, cut after the
first `MAX_ARGS - 1` = 63; no token is empty and none holds a delimiter. -/
theorem tokens_are_maximal_runs (input : Mem) (toks : List Nat) (mem1 : Mem)
    (hnul : NUL ∈ input) (htok : tokenize input = (toks, mem1)) :
    toks.map (cstr mem1) = (maximal_runs (cstr input 0)).take (MAX_ARGS - 1) ∧
      MAX_ARGS - 1 = 63 ∧
      ∀ a ∈ toks, cstr mem1 a ≠ [] ∧ ∀ c ∈ cstr mem1 a, isDelim c = false := by
  obtain ⟨-, hlaid⟩ := tokenize_layout input hnul toks mem1 htok
  obtain ⟨-, htoken⟩ := well_laid_sorted mem1 toks 0 hlaid
  exact ⟨tokenize_strings input toks mem1 hnul htok, rfl,
    fun a ha => ⟨(htoken a ha).2.1, (htoken a ha).2.2.1⟩⟩

/-- C11, witness: the line `  echo   a b `. -/
theorem tokens_are_maximal_runs_witness :
    ([2, 9, 11] : List Nat).map (cstr (tokenize (line_buffer "  echo   a b ".toList)).2)
      = (maximal_runs (cstr (line_buffer "  echo   a b ".toList) 0)).take (MAX_ARGS - 1) ∧
      MAX_ARGS - 1 = 63 ∧
      ∀ a ∈ ([2, 9, 11] : List Nat),
        cstr (tokenize (line_buffer "  echo   a b ".toList)).2 a ≠ [] ∧
        ∀ c ∈ cstr (tokenize (line_buffer "  echo   a b ".toList)).2 a, isDelim c = false :=
  tokens_are_maximal_runs (line_buffer "  echo   a b ".toList) [2, 9, 11]
    (tokenize (line_buffer "  echo   a b ".toList)).2 (by decide!) (by decide!)

/-- C12: joining the tokens `parse_command` stores with single spaces gives the
first `MAX_ARGS - 1` maximal runs of the line joined with single spaces; when
the line has at most `MAX_ARGS - 1` = 63 maximal runs this is the normalized
line: leading and trailing delimiters removed and every run of delimiters
collapsed to one space. -/
theorem joined_tokens_normalized (input : Mem) (toks : List Nat) (mem1 : Mem)
    (hnul : NUL ∈ input) (htok : tokenize input = (toks, mem1)) :
    join_spaces (toks.map (cstr mem1))
        = join_spaces ((maximal_runs (cstr input 0)).take (MAX_ARGS - 1)) ∧
      ((maximal_runs (cstr input 0)).length ≤ MAX_ARGS - 1 →
        join_spaces (toks.map (cstr mem1)) = normalized (cstr input 0)) := by
  have h := tokenize_strings input toks mem1 hnul htok
  refine ⟨by rw [h], fun hfew => ?_⟩
  rw [h, List.take_of_length_le hfew, join_runs_normalized]

/-- C12, witness: the line `  echo   a b `, whose tokens join to `echo a b`. -/
theorem joined_tokens_normalized_witness :
    join_spaces (([2, 9, 11] : List Nat).map
        (cstr (tokenize (line_buffer "  echo   a b ".toList)).2)) = "echo a b".toList ∧
      normalized (cstr (line_buffer "  echo   a b ".toList) 0) = "echo a b".toList :=
  have h := joined_tokens_normalized (line_buffer "  echo   a b ".toList) [2, 9, 11]
    (tokenize (line_buffer "  echo   a b ".toList)).2 (by decide!) (by decide!)
  ⟨by decide!, (h.2 (by decide!)).symm.trans (by decide!)⟩

/-- C12, counterexample: on a line of 64 words `a` separated by single spaces
the tokenizer stores 63 tokens, so the joined tokens are one word short of the
normalized line. -/
theorem sixty_fourth_token_dropped :
    (tokenize (line_buffer (join_spaces (List.replicate 64 ['a'])))).1.length = 63 ∧
      normalized (cstr (line_buffer (join_spaces (List.replicate 64 ['a']))) 0)
        = join_spaces (List.replicate 64 ['a']) ∧
      join_spaces ((tokenize (line_buffer (join_spaces (List.replicate 64 ['a'])))).1.map
          (cstr (tokenize (line_buffer (join_spaces (List.replicate 64 ['a'])))).2))
        = join_spaces (List.replicate 63 ['a']) ∧
      join_spaces ((tokenize (line_buffer (join_spaces (List.replicate 64 ['a'])))).1.map
          (cstr (tokenize (line_buffer (join_spaces (List.replicate 64 ['a'])))).2))
        ≠ normalized (cstr (line_buffer (join_spaces (List.replicate 64 ['a']))) 0) := by
  decide!

/-- C18: for a store whose values hold no `$` and tokens in buffer order, each
terminated inside the buffer and free of delimiters, the loop of
`replace_variables` makes at most one rewrite per token: the outcome with any
fuel is the outcome with fuel 1, it is never `out_of_fuel`, and when the
function returns no token holds a `$`; it does return when the buffer is within
`MAX_INPUT_SIZE` and every token with a `$` fits `key[128]` and leaves room for
any stored value.  With `X` bound to `$X` the loop on the token `$X` runs out of
every fuel: it does not terminate. -/
theorem replace_variables_terminates (env : Env) (mem : Mem) (toks : List Nat)
    (hval : ∀ e ∈ env, NUL ∉ e.2 ∧ '$' ∉ e.2)
    (hsorted : toks.Pairwise (fun x y => x < y))
    (hfine : ∀ a ∈ toks, fine mem a) :
    (∀ fuel, replace_variables env (fuel + 1) mem (toks.map some ++ [none])
        = replace_variables env 1 mem (toks.map some ++ [none])) ∧
      replace_variables env 1 mem (toks.map some ++ [none]) ≠ .error .out_of_fuel ∧
      (∀ mem1, replace_variables env 1 mem (toks.map some ++ [none]) = .ok mem1 →
        ∀ a ∈ toks, '$' ∉ cstr mem1 a) ∧
      (mem.length ≤ MAX_INPUT_SIZE →
        (∀ a ∈ toks, '$' ∈ cstr mem a → (cstr mem a).length ≤ KEY_SIZE ∧
          ∀ e ∈ env, a + (cstr mem a).length + e.2.length < mem.length) →
        ∃ mem1, replace_variables env 1 mem (toks.map some ++ [none]) = .ok mem1) ∧
      ∀ fuel post, replace_variables [("X".toList, "$X".toList)] fuel
        ('$' :: 'X' :: NUL :: post) [some 0, none] = .error .out_of_fuel := by
  obtain ⟨h1, h2, h3⟩ := replace_variables_rounds env hval toks mem hsorted
    (fun b hb => ⟨(hfine b hb).1, fun _ => (hfine b hb).2⟩)
  refine ⟨h1, h2, fun mem1 h a ha => ((h3 mem1 h).2.1 a ha).2, fun hbuf hsize => ?_,
    fun fuel post => ?_⟩
  · exact replace_variables_returns env hval toks mem hsorted hbuf
      (fun b hb => ⟨(hfine b hb).1, fun hd =>
        ⟨(hfine b hb).2, (hsize b hb hd).1, (hsize b hb hd).2⟩⟩)
  · have h5 : strchr ('$' :: 'X' :: NUL :: post) 0 '$' = some 0 := by
      simp [strchr, scan, NUL]
    simp only [replace_variables, replace_token, h5, self_reference_loops post fuel]

/-- C18, witness: the line `echo $X` with `X` bound to `1`. -/
theorem replace_variables_terminates_witness :
    (∀ fuel, replace_variables [("X".toList, "1".toList)] (fuel + 1)
          (tokenize (line_buffer "echo $X".toList)).2 [some 0, some 5, none]
        = replace_variables [("X".toList, "1".toList)] 1
          (tokenize (line_buffer "echo $X".toList)).2 [some 0, some 5, none]) ∧
      replace_variables [("X".toList, "1".toList)] 1
          (tokenize (line_buffer "echo $X".toList)).2 [some 0, some 5, none]
        ≠ .error .out_of_fuel ∧
      ∃ mem1, replace_variables [("X".toList, "1".toList)] 1
          (tokenize (line_buffer "echo $X".toList)).2 [some 0, some 5, none] = .ok mem1 :=
  have h := replace_variables_terminates [("X".toList, "1".toList)]
    (tokenize (line_buffer "echo $X".toList)).2 [0, 5]
    (by decide) (by decide) (by unfold fine; decide!)
  ⟨h.1, h.2.1, h.2.2.2.1 (by decide!) (by decide!)⟩

end Shell
